import Mathlib

/-!
Verification of the ordinal arithmetic, the textual codecs of `src/ordinal.rs`,
and the ordinal-aware transaction builder of
`src/subcommand/wallet/transaction_builder.rs`, shallowly embedded in Lean.

Modelling conventions:
* Machine integers (`u64`, `usize`) are modelled as `Nat`.  On inputs drawn
  from the documented identifier space `[0, SUPPLY)` every intermediate value
  in the source stays far below `2^64`, so two's-complement wrap-around is not
  modelled; the places where Rust `Amount` arithmetic would panic on underflow
  are modelled as explicit panic branches.
* Rust strings are modelled as `List Char`.
* Fallible codec functions returning `Result` are modelled as
  `Option`-returning functions; the transaction builder, which can both return
  typed errors and panic, returns a dedicated `Step` type distinguishing
  success, typed user errors and panics.
* `epoch.rs`, `height.rs`, `rarity.rs` and `degree.rs` are not present under
  `src/`; the definitions derived from them are modelled from the spec and
  marked as such in their doc comments.
-/

namespace Ordinals

def SUPPLY : Nat := 2099999997690000

def SUBSIDY_HALVING_INTERVAL : Nat := 210000

def DIFFCHANGE_INTERVAL : Nat := 2016

def CYCLE_EPOCHS : Nat := 6

/-- Modelled from the spec: `epoch.rs` is absent from `src/`.  §4.1: for epoch
`e` the block subsidy is `50·10^8 >> e`, reaching zero once the shift
exhausts the value. -/
def subsidyOfEpoch (e : Nat) : Nat := 5000000000 >>> e

/-- Modelled from the spec: `epoch.rs` is absent from `src/`.  §3: the starting
identifier of epoch `e` is the sum of the previous epoch sizes, each epoch
emitting `SUBSIDY_HALVING_INTERVAL · subsidy(e)` identifiers. -/
def epochStart : Nat → Nat
  | 0 => 0
  | e + 1 => epochStart e + SUBSIDY_HALVING_INTERVAL * subsidyOfEpoch e

/-- Search, downward from `fuel`, for the largest epoch index whose starting
identifier is at most `n`. -/
def epochAux : Nat → Nat → Nat
  | 0, _ => 0
  | e + 1, n => if epochStart (e + 1) ≤ n then e + 1 else epochAux e n

/-- Modelled from the spec: `epoch.rs` is absent from `src/`.  §3: the epoch of
an identifier is its halving index, i.e. the largest epoch whose starting
identifier is at most the identifier.  Epoch 32 is the final minting epoch. -/
def epochOf (n : Nat) : Nat := epochAux 32 n

/-- `Ordinal::epoch_position` (src/ordinal.rs): `self.0 - epoch.starting_ordinal()`. -/
def epochPosition (n : Nat) : Nat := n - epochStart (epochOf n)

/-- `Ordinal::third` (src/ordinal.rs): `epoch_position % subsidy`. -/
def thirdOf (n : Nat) : Nat := epochPosition n % subsidyOfEpoch (epochOf n)

/-- `Ordinal::height` (src/ordinal.rs): `starting_height + epoch_position / subsidy`,
with the spec's §4.1 starting height `e · SUBSIDY_HALVING_INTERVAL`. -/
def heightOf (n : Nat) : Nat :=
  epochOf n * SUBSIDY_HALVING_INTERVAL + epochPosition n / subsidyOfEpoch (epochOf n)

inductive Rarity where
  | common
  | uncommon
  | rare
  | epic
  | legendary
  | mythic
deriving DecidableEq, Repr

/-- The source orders rarities `Common < Uncommon < Rare < Epic < Legendary <
Mythic`; comparisons in the builder are modelled through this rank. -/
def Rarity.rank : Rarity → Nat
  | .common => 0
  | .uncommon => 1
  | .rare => 2
  | .epic => 3
  | .legendary => 4
  | .mythic => 5

/-- Modelled from the spec: `rarity.rs` is absent from `src/`.  §3 rarity
rules: identifier 0 is Mythic; otherwise an identifier starting a block
(`third = 0`) is Legendary at a cycle-aligned epoch start, Epic at any other
epoch start, Rare at the first block of a difficulty period, else Uncommon;
everything else is Common. -/
def rarityOf (n : Nat) : Rarity :=
  if n = 0 then .mythic
  else if thirdOf n = 0 ∧ epochPosition n = 0 ∧ epochOf n % CYCLE_EPOCHS = 0 then .legendary
  else if thirdOf n = 0 ∧ epochPosition n = 0 then .epic
  else if thirdOf n = 0 ∧ heightOf n % DIFFCHANGE_INTERVAL = 0 then .rare
  else if thirdOf n = 0 then .uncommon
  else .common

/-- `Ordinal::is_common` (src/ordinal.rs):
`(self.0 - epoch.starting_ordinal().0) % epoch.subsidy() != 0`. -/
def isCommon (n : Nat) : Bool :=
  (n - epochStart (epochOf n)) % subsidyOfEpoch (epochOf n) != 0

/-- C3: for every identifier `n` in `[0, SUPPLY)`, the fast predicate
`is_common` returns `true` exactly when the full classification `rarity`
yields `Common`. -/
theorem isCommon_iff_rarity_common (n : Nat) (h : n < SUPPLY) :
    isCommon n = true ↔ rarityOf n = Rarity.common := by
  have hthird : isCommon n = true ↔ thirdOf n ≠ 0 := by
    unfold isCommon thirdOf epochPosition
    exact bne_iff_ne
  rw [hthird]
  unfold rarityOf
  by_cases h0 : n = 0
  · subst h0
    constructor
    · intro hc
      exact absurd (by decide : thirdOf 0 = 0) hc
    · intro hr
      simp at hr
  · rw [if_neg h0]
    by_cases ht : thirdOf n = 0
    · constructor
      · intro hc
        exact absurd ht hc
      · intro hr
        by_cases h1 : thirdOf n = 0 ∧ epochPosition n = 0 ∧ epochOf n % CYCLE_EPOCHS = 0
        · rw [if_pos h1] at hr
          exact absurd hr (by simp)
        · rw [if_neg h1] at hr
          by_cases h2 : thirdOf n = 0 ∧ epochPosition n = 0
          · rw [if_pos h2] at hr
            exact absurd hr (by simp)
          · rw [if_neg h2] at hr
            by_cases h3 : thirdOf n = 0 ∧ heightOf n % DIFFCHANGE_INTERVAL = 0
            · rw [if_pos h3] at hr
              exact absurd hr (by simp)
            · rw [if_neg h3, if_pos ht] at hr
              exact absurd hr (by simp)
    · rw [if_neg (fun hc => ht hc.1), if_neg (fun hc => ht hc.1),
        if_neg (fun hc => ht hc.1), if_neg ht]
      simp [ht]

/-- Witness for C3 at the concrete identifier 3 (a Common sat). -/
theorem isCommon_iff_rarity_common_witness :
    3 < SUPPLY ∧ (isCommon 3 = true ↔ rarityOf 3 = Rarity.common) :=
  ⟨by decide, isCommon_iff_rarity_common 3 (by decide)⟩

theorem epochAux_le (f n : Nat) : epochAux f n ≤ f := by
  induction f with
  | zero => simp [epochAux]
  | succ e ih =>
    unfold epochAux
    split
    · exact Nat.le_refl _
    · exact Nat.le_succ_of_le ih

theorem epochStart_epochAux_le (f n : Nat) : epochStart (epochAux f n) ≤ n := by
  induction f with
  | zero => simp [epochAux, epochStart]
  | succ e ih =>
    unfold epochAux
    split
    · assumption
    · exact ih

theorem epochAux_upper (f n : Nat) :
    epochAux f n = f ∨ n < epochStart (epochAux f n + 1) := by
  induction f with
  | zero => exact Or.inl rfl
  | succ e ih =>
    unfold epochAux
    split
    · exact Or.inl rfl
    · rename_i hlt
      rcases ih with h | h
      · right
        rw [h]
        omega
      · exact Or.inr h

theorem supply_eq_epochStart : epochStart 33 = SUPPLY := by decide

theorem epochStart_epochOf_le (n : Nat) : epochStart (epochOf n) ≤ n :=
  epochStart_epochAux_le 32 n

theorem epochOf_le (n : Nat) : epochOf n ≤ 32 :=
  epochAux_le 32 n

theorem lt_epochStart_succ_epochOf {n : Nat} (h : n < SUPPLY) :
    n < epochStart (epochOf n + 1) := by
  rcases epochAux_upper 32 n with h2 | h2
  · unfold epochOf
    rw [h2]
    exact supply_eq_epochStart ▸ h
  · exact h2

theorem subsidyOfEpoch_pos {e : Nat} (h : e ≤ 32) : 0 < subsidyOfEpoch e := by
  unfold subsidyOfEpoch
  rw [Nat.shiftRight_eq_div_pow]
  apply Nat.div_pos
  · calc (2 : Nat) ^ e ≤ 2 ^ 32 := Nat.pow_le_pow_right (by decide) h
      _ ≤ 5000000000 := by decide
  · exact pow_pos (by decide) e

theorem epochStart_succ (e : Nat) :
    epochStart (e + 1) = epochStart e + SUBSIDY_HALVING_INTERVAL * subsidyOfEpoch e := rfl

/-! ## Name codec (src/ordinal.rs: `Ordinal::name`, `Ordinal::from_name`) -/

def nameAlphabet : List Char :=
  ['a', 'b', 'c', 'd', 'e', 'f', 'g', 'h', 'i', 'j', 'k', 'l', 'm',
   'n', 'o', 'p', 'q', 'r', 's', 't', 'u', 'v', 'w', 'x', 'y', 'z']

/-- `"abcdefghijklmnopqrstuvwxyz".chars().nth(d)` in `Ordinal::name`. -/
def letterChar (d : Nat) : Char := nameAlphabet.getD d 'a'

/-- The range pattern `'a'..='z'` used both by `Ordinal::from_name` and by the
`FromStr` dispatcher. -/
def isNameChar (c : Char) : Bool := decide ('a' ≤ c ∧ c ≤ 'z')

def nameGo : Nat → Nat → List Char
  | _, 0 => []
  | 0, _ + 1 => []
  | f + 1, x + 1 => letterChar (x % 26) :: nameGo f (x / 26)

/-- `Ordinal::name` (src/ordinal.rs): starting from `x = SUPPLY - n`, repeatedly
push `letter[(x-1) % 26]` and set `x ← (x-1)/26`, then reverse.  The fuel 64
is inert: the loop runs at most 12 times because `x ≤ SUPPLY < 26^64`. -/
def nameChars (n : Nat) : List Char := (nameGo 64 (SUPPLY - n)).reverse

def nameVal (acc : Nat) : List Char → Nat
  | [] => acc
  | c :: cs => nameVal (acc * 26 + (c.toNat - 'a'.toNat) + 1) cs

def decodeNameAcc (acc : Nat) : List Char → Option Nat
  | [] => some acc
  | c :: cs =>
    if isNameChar c then decodeNameAcc (acc * 26 + (c.toNat - 'a'.toNat) + 1) cs
    else none

/-- `Ordinal::from_name` (src/ordinal.rs): fold `x ← x·26 + (c - 'a') + 1` over
the characters, rejecting anything outside `a..z`, then reject `x > SUPPLY`
and return `SUPPLY - x`. -/
def fromName (s : List Char) : Option Nat :=
  match decodeNameAcc 0 s with
  | none => none
  | some x => if SUPPLY < x then none else some (SUPPLY - x)

theorem letterChar_facts :
    ∀ d, d < 26 →
      (isNameChar (letterChar d) = true ∧ (letterChar d).toNat - 'a'.toNat = d) := by
  decide

theorem letterChar_letterVal {c : Char} (h : isNameChar c = true) :
    letterChar (c.toNat - 'a'.toNat) = c := by
  have h2 : 'a' ≤ c ∧ c ≤ 'z' := of_decide_eq_true h
  have h3 : 97 ≤ c.toNat := h2.1
  have h4 : c.toNat ≤ 122 := h2.2
  have h5 : ∀ k, 97 ≤ k → k ≤ 122 → letterChar (k - 97) = Char.ofNat k := by
    intro k hk1 hk2
    interval_cases k <;> rfl
  have h6 := h5 c.toNat h3 h4
  rw [Char.ofNat_toNat] at h6
  exact h6

theorem letterVal_lt {c : Char} (h : isNameChar c = true) : c.toNat - 'a'.toNat < 26 := by
  have h2 : 'a' ≤ c ∧ c ≤ 'z' := of_decide_eq_true h
  have h3 : 97 ≤ c.toNat := h2.1
  have h4 : c.toNat ≤ 122 := h2.2
  have h5 : 'a'.toNat = 97 := rfl
  omega

theorem decodeNameAcc_eq (s : List Char) : ∀ acc,
    decodeNameAcc acc s =
      if s.all (fun c => isNameChar c) = true then some (nameVal acc s) else none := by
  induction s with
  | nil =>
    intro acc
    simp [decodeNameAcc, nameVal]
  | cons c cs ih =>
    intro acc
    by_cases hc : isNameChar c = true
    · simp [decodeNameAcc, hc, ih, nameVal, List.all_cons]
    · simp [decodeNameAcc, hc, List.all_cons]

theorem nameVal_append (l : List Char) (c : Char) : ∀ acc,
    nameVal acc (l ++ [c]) = nameVal acc l * 26 + (c.toNat - 'a'.toNat) + 1 := by
  induction l with
  | nil =>
    intro acc
    simp [nameVal]
  | cons d ds ih =>
    intro acc
    simp [nameVal, ih]

theorem nameVal_le (s : List Char) : ∀ acc, acc ≤ nameVal acc s := by
  induction s with
  | nil =>
    intro acc
    simp [nameVal]
  | cons c cs ih =>
    intro acc
    simp only [nameVal]
    calc acc ≤ acc * 26 + (c.toNat - 'a'.toNat) + 1 := by omega
      _ ≤ nameVal (acc * 26 + (c.toNat - 'a'.toNat) + 1) cs := ih _

theorem nameVal_pos {s : List Char} (h : s ≠ []) : 1 ≤ nameVal 0 s := by
  cases s with
  | nil => simp at h
  | cons c cs =>
    simp only [nameVal]
    have := nameVal_le cs (0 * 26 + (c.toNat - 'a'.toNat) + 1)
    omega

theorem nameVal_nameGo : ∀ f x, x < 26 ^ f → nameVal 0 ((nameGo f x).reverse) = x := by
  intro f
  induction f with
  | zero =>
    intro x hx
    interval_cases x
    simp [nameGo, nameVal]
  | succ f ih =>
    intro x hx
    match x with
    | 0 => simp [nameGo, nameVal]
    | y + 1 =>
      have hpow : 26 ^ (f + 1) = 26 ^ f * 26 := pow_succ 26 f
      have hdiv : y / 26 < 26 ^ f := by
        rw [Nat.div_lt_iff_lt_mul (by decide : 0 < 26)]
        omega
      have hrec := ih (y / 26) hdiv
      simp only [nameGo, List.reverse_cons]
      rw [nameVal_append, hrec,
        (letterChar_facts (y % 26) (Nat.mod_lt _ (by decide))).2]
      omega

theorem nameGo_nameVal :
    ∀ (l : List Char), l.all (fun c => isNameChar c) = true →
      ∀ f, nameVal 0 l < 26 ^ f → (nameGo f (nameVal 0 l)).reverse = l := by
  intro l
  induction l using List.reverseRecOn with
  | nil =>
    intro _ f _
    cases f <;> simp [nameGo, nameVal]
  | append_singleton l' c ih =>
    intro hall f hlt
    have hc : isNameChar c = true := List.all_eq_true.mp hall c (by simp)
    have hall' : l'.all (fun c => isNameChar c) = true := by
      apply List.all_eq_true.mpr
      intro x hx
      exact List.all_eq_true.mp hall x (by simp [hx])
    have hv : c.toNat - 'a'.toNat < 26 := letterVal_lt hc
    rw [nameVal_append] at hlt ⊢
    cases f with
    | zero =>
      exfalso
      simp only [pow_zero] at hlt
      omega
    | succ f' =>
      have hpow : 26 ^ (f' + 1) = 26 ^ f' * 26 := pow_succ 26 f'
      have hstep :
          nameGo (f' + 1) (nameVal 0 l' * 26 + (c.toNat - 'a'.toNat) + 1) =
            letterChar ((nameVal 0 l' * 26 + (c.toNat - 'a'.toNat)) % 26) ::
              nameGo f' ((nameVal 0 l' * 26 + (c.toNat - 'a'.toNat)) / 26) := rfl
      have hmod : (nameVal 0 l' * 26 + (c.toNat - 'a'.toNat)) % 26 = c.toNat - 'a'.toNat := by
        omega
      have hdiv : (nameVal 0 l' * 26 + (c.toNat - 'a'.toNat)) / 26 = nameVal 0 l' := by
        omega
      rw [hstep, hmod, hdiv, List.reverse_cons, letterChar_letterVal hc,
        ih hall' f' (by omega)]

theorem mem_nameGo_isNameChar : ∀ f x c, c ∈ nameGo f x → isNameChar c = true := by
  intro f
  induction f with
  | zero =>
    intro x c hc
    cases x <;> simp [nameGo] at hc
  | succ f ih =>
    intro x c hc
    cases x with
    | zero => simp [nameGo] at hc
    | succ y =>
      simp only [nameGo, List.mem_cons] at hc
      rcases hc with h | h
      · rw [h]
        exact (letterChar_facts (y % 26) (Nat.mod_lt _ (by decide))).1
      · exact ih _ _ h

theorem nameGo_ne_nil {f x : Nat} (hf : 0 < f) (hx : 0 < x) : nameGo f x ≠ [] := by
  cases f with
  | zero => omega
  | succ f =>
    cases x with
    | zero => omega
    | succ y => simp [nameGo]

/-- C7: name decoding is the exact inverse of name encoding.  First part:
`from_name (name i) = i` for every identifier.  Second part: a string is
dispatched to name parsing (it contains a letter `a..z` — the `FromStr`
dispatch condition) and accepted by `from_name` exactly when it is `name i`
for some identifier `i < SUPPLY`; in particular strings with characters
outside `a..z` and strings whose decoded value falls outside `[0, SUPPLY)`
are rejected. -/
theorem name_codec_correct :
    (∀ i, i < SUPPLY → fromName (nameChars i) = some i) ∧
    (∀ s : List Char,
      ((∃ c ∈ s, isNameChar c = true) ∧ (fromName s).isSome = true) ↔
      ∃ i, i < SUPPLY ∧ s = nameChars i) := by
  have hsup : SUPPLY < 26 ^ 64 := by decide
  have part1 : ∀ i, i < SUPPLY → fromName (nameChars i) = some i := by
    intro i hi
    unfold fromName nameChars
    have hx : SUPPLY - i < 26 ^ 64 := by omega
    rw [decodeNameAcc_eq]
    have hall : (nameGo 64 (SUPPLY - i)).reverse.all (fun c => isNameChar c) = true := by
      apply List.all_eq_true.mpr
      intro c hc
      exact mem_nameGo_isNameChar _ _ _ (List.mem_reverse.mp hc)
    rw [if_pos hall, nameVal_nameGo 64 (SUPPLY - i) hx]
    show (if SUPPLY < SUPPLY - i then none else some (SUPPLY - (SUPPLY - i))) = some i
    rw [if_neg (by omega : ¬ SUPPLY < SUPPLY - i)]
    congr 1
    omega
  refine ⟨part1, ?_⟩
  intro s
  constructor
  · rintro ⟨⟨c, hcs, hc⟩, hsome⟩
    unfold fromName at hsome
    rw [decodeNameAcc_eq] at hsome
    by_cases hall : s.all (fun c => isNameChar c) = true
    · rw [if_pos hall] at hsome
      have hsome2 :
          (if SUPPLY < nameVal 0 s then none else some (SUPPLY - nameVal 0 s)).isSome = true :=
        hsome
      by_cases hgt : SUPPLY < nameVal 0 s
      · rw [if_pos hgt] at hsome2
        simp at hsome2
      · have hs_ne : s ≠ [] := by
          intro h
          subst h
          simp at hcs
        have hpos : 1 ≤ nameVal 0 s := nameVal_pos hs_ne
        refine ⟨SUPPLY - nameVal 0 s, by omega, ?_⟩
        unfold nameChars
        rw [(by omega : SUPPLY - (SUPPLY - nameVal 0 s) = nameVal 0 s)]
        exact (nameGo_nameVal s hall 64 (by omega)).symm
    · rw [if_neg hall] at hsome
      have hsome2 : (none : Option Nat).isSome = true := hsome
      simp at hsome2
  · rintro ⟨i, hi, rfl⟩
    refine ⟨?_, ?_⟩
    · have hne : nameGo 64 (SUPPLY - i) ≠ [] := nameGo_ne_nil (by decide) (by omega)
      cases h : nameGo 64 (SUPPLY - i) with
      | nil => exact absurd h hne
      | cons c cs =>
        exact ⟨c, by simp [nameChars, h], mem_nameGo_isNameChar 64 (SUPPLY - i) c (by rw [h]; simp)⟩
    · rw [part1 i hi]
      rfl

/-- Witness for C7 at identifier 0 (whose name is `nvtdijuwxlp`). -/
theorem name_codec_correct_witness :
    0 < SUPPLY ∧ fromName (nameChars 0) = some 0 :=
  ⟨by decide, name_codec_correct.1 0 (by decide)⟩

/-! ## Decimal numerals (Rust `u64` display and `u64::from_str`) -/

def digitCharList : List Char := ['0', '1', '2', '3', '4', '5', '6', '7', '8', '9']

def digitChar (d : Nat) : Char := digitCharList.getD d '0'

def isDigitChar (c : Char) : Bool := decide ('0' ≤ c ∧ c ≤ '9')

def digitsVal (acc : Nat) : List Char → Nat
  | [] => acc
  | c :: cs => digitsVal (acc * 10 + (c.toNat - '0'.toNat)) cs

def natGo : Nat → Nat → List Char
  | _, 0 => []
  | 0, _ + 1 => []
  | f + 1, x + 1 => digitChar ((x + 1) % 10) :: natGo f ((x + 1) / 10)

/-- Decimal rendering of a `u64` (Rust `Display`): most significant digit
first, `"0"` for zero.  The fuel 30 is inert since all rendered values stay
far below `10^30`. -/
def natChars (n : Nat) : List Char := if n = 0 then ['0'] else (natGo 30 n).reverse

def parseDigits (s : List Char) : Option Nat :=
  if s ≠ [] ∧ s.all (fun c => isDigitChar c) = true then some (digitsVal 0 s) else none

/-- Rust `u64::from_str`: an optional leading `+` followed by one or more
decimal digits.  Overflow, which cannot occur for the magnitudes produced by
the degree renderer, is not modelled. -/
def parseNat (s : List Char) : Option Nat :=
  match s with
  | [] => none
  | c :: rest => if c = '+' then parseDigits rest else parseDigits (c :: rest)

theorem digitChar_facts :
    ∀ d, d < 10 →
      (isDigitChar (digitChar d) = true ∧ (digitChar d).toNat - '0'.toNat = d) := by
  decide

theorem digitsVal_append (l : List Char) (c : Char) : ∀ acc,
    digitsVal acc (l ++ [c]) = digitsVal acc l * 10 + (c.toNat - '0'.toNat) := by
  induction l with
  | nil =>
    intro acc
    rw [List.nil_append]
    show digitsVal (acc * 10 + (c.toNat - '0'.toNat)) [] = acc * 10 + (c.toNat - '0'.toNat)
    rfl
  | cons d ds ih =>
    intro acc
    rw [List.cons_append]
    show digitsVal (acc * 10 + (d.toNat - '0'.toNat)) (ds ++ [c]) =
      digitsVal (acc * 10 + (d.toNat - '0'.toNat)) ds * 10 + (c.toNat - '0'.toNat)
    exact ih _

theorem digitsVal_natGo : ∀ f x, x < 10 ^ f → digitsVal 0 ((natGo f x).reverse) = x := by
  intro f
  induction f with
  | zero =>
    intro x hx
    interval_cases x
    rfl
  | succ f ih =>
    intro x hx
    match x with
    | 0 => rfl
    | y + 1 =>
      have hpow : 10 ^ (f + 1) = 10 ^ f * 10 := pow_succ 10 f
      have hdiv : (y + 1) / 10 < 10 ^ f := by
        rw [Nat.div_lt_iff_lt_mul (by decide : 0 < 10)]
        omega
      have hrec := ih ((y + 1) / 10) hdiv
      simp only [natGo, List.reverse_cons]
      rw [digitsVal_append, hrec,
        (digitChar_facts ((y + 1) % 10) (Nat.mod_lt _ (by decide))).2]
      omega

theorem mem_natGo_isDigit : ∀ f x c, c ∈ natGo f x → isDigitChar c = true := by
  intro f
  induction f with
  | zero =>
    intro x c hc
    cases x <;> simp [natGo] at hc
  | succ f ih =>
    intro x c hc
    cases x with
    | zero => simp [natGo] at hc
    | succ y =>
      simp only [natGo, List.mem_cons] at hc
      rcases hc with h | h
      · rw [h]
        exact (digitChar_facts ((y + 1) % 10) (Nat.mod_lt _ (by decide))).1
      · exact ih _ _ h

theorem natChars_all_digits (n : Nat) : ∀ c ∈ natChars n, isDigitChar c = true := by
  intro c hc
  unfold natChars at hc
  by_cases h0 : n = 0
  · rw [if_pos h0] at hc
    simp at hc
    rw [hc]
    decide
  · rw [if_neg h0] at hc
    exact mem_natGo_isDigit 30 n c (List.mem_reverse.mp hc)

theorem natGo_ne_nil {f x : Nat} (hf : 0 < f) (hx : 0 < x) : natGo f x ≠ [] := by
  cases f with
  | zero => omega
  | succ f =>
    cases x with
    | zero => omega
    | succ y => simp [natGo]

theorem natChars_ne_nil (n : Nat) : natChars n ≠ [] := by
  unfold natChars
  by_cases h0 : n = 0
  · rw [if_pos h0]
    simp
  · rw [if_neg h0]
    simp only [ne_eq, List.reverse_eq_nil_iff]
    exact natGo_ne_nil (by decide) (by omega)

theorem digitsVal_natChars (n : Nat) (h : n < 10 ^ 30) : digitsVal 0 (natChars n) = n := by
  unfold natChars
  by_cases h0 : n = 0
  · subst h0
    rw [if_pos rfl]
    decide
  · rw [if_neg h0]
    exact digitsVal_natGo 30 n h

theorem parseNat_natChars (n : Nat) (h : n < 10 ^ 30) : parseNat (natChars n) = some n := by
  have hne := natChars_ne_nil n
  have hdig := natChars_all_digits n
  cases hs : natChars n with
  | nil => exact absurd hs hne
  | cons c cs =>
    have hc : isDigitChar c = true := hdig c (by rw [hs]; simp)
    have hcp : c ≠ '+' := by
      intro hplus
      rw [hplus] at hc
      exact absurd hc (by decide)
    have hred : parseNat (c :: cs) = parseDigits (c :: cs) := by
      show (if c = '+' then parseDigits cs else parseDigits (c :: cs)) = parseDigits (c :: cs)
      rw [if_neg hcp]
    rw [hred, ← hs]
    unfold parseDigits
    rw [if_pos ⟨hne, List.all_eq_true.mpr hdig⟩]
    rw [digitsVal_natChars n h]

theorem not_mem_natChars {c : Char} (hc : isDigitChar c = false) (m : Nat) :
    c ∉ natChars m := by
  intro hm
  have := natChars_all_digits m c hm
  rw [hc] at this
  exact absurd this (by simp)

theorem isNameChar_false_of_digit {c : Char} (h : isDigitChar c = true) :
    isNameChar c = false := by
  have h2 : '0' ≤ c ∧ c ≤ '9' := of_decide_eq_true h
  have h4 : c.toNat ≤ 57 := h2.2
  unfold isNameChar
  apply decide_eq_false
  intro hcon
  have h5 : 97 ≤ c.toNat := hcon.1
  omega

/-! ## `str::split_once` -/

def splitOnce (t : Char) : List Char → Option (List Char × List Char)
  | [] => none
  | c :: cs =>
    if c = t then some ([], cs)
    else
      match splitOnce t cs with
      | none => none
      | some p => some (c :: p.1, p.2)

theorem splitOnce_append {t : Char} : ∀ (l1 l2 : List Char), t ∉ l1 →
    splitOnce t (l1 ++ t :: l2) = some (l1, l2) := by
  intro l1
  induction l1 with
  | nil =>
    intro l2 _
    simp [splitOnce]
  | cons c cs ih =>
    intro l2 hmem
    have hct : c ≠ t := by
      intro h
      exact hmem (by simp [h])
    rw [List.cons_append]
    show (if c = t then some ([], cs ++ t :: l2)
        else
          match splitOnce t (cs ++ t :: l2) with
          | none => none
          | some p => some (c :: p.1, p.2)) = some (c :: cs, l2)
    rw [if_neg hct, ih l2 (fun h => hmem (by simp [h]))]

/-! ## Degree codec (src/ordinal.rs: `Ordinal::from_degree`; rendering
modelled from the spec, `degree.rs` being absent from `src/`) -/

def HALVING_INCREMENT : Nat := SUBSIDY_HALVING_INTERVAL % DIFFCHANGE_INTERVAL

/-- Option bind, written out so that rewriting proofs can unfold it one step
at a time. -/
def obind {α β : Type} (x : Option α) (f : α → Option β) : Option β :=
  match x with
  | none => none
  | some a => f a

theorem obind_some {α β : Type} (a : α) (f : α → Option β) : obind (some a) f = f a := rfl

/-- Modelled from the spec: `height.rs` is absent from `src/`.  §4.1: the
subsidy of the block at height `h` is `50·10^8 >> (h / SUBSIDY_HALVING_INTERVAL)`. -/
def heightSubsidy (h : Nat) : Nat := 5000000000 >>> (h / SUBSIDY_HALVING_INTERVAL)

/-- Modelled from the spec: `height.rs` is absent from `src/`.  §4.4: the
starting identifier of the block at height `h` is its epoch's starting
identifier plus the identifiers emitted by the earlier blocks of that epoch. -/
def heightStartingOrdinal (h : Nat) : Nat :=
  epochStart (h / SUBSIDY_HALVING_INTERVAL) +
    (h % SUBSIDY_HALVING_INTERVAL) * heightSubsidy h

/-- Modelled from the spec: `degree.rs` is absent from `src/`.  §4.4: the
degree rendering `C°E′P″B‴` projects the cycle number, the block offset
within the epoch, the block offset within the difficulty period, and the
identifier offset within the block. -/
def degreeChars (n : Nat) : List Char :=
  natChars (epochOf n / CYCLE_EPOCHS) ++
    '°' :: (natChars (heightOf n % SUBSIDY_HALVING_INTERVAL) ++
      '′' :: (natChars (heightOf n % DIFFCHANGE_INTERVAL) ++
        '″' :: (natChars (thirdOf n) ++ ['‴'])))

/-- The `rest.split_once('‴')` match inside `Ordinal::from_degree`: an absent
`‴` yields block offset 0 with the rest unconsumed. -/
def parseBlockOffset (rest : List Char) : Option (Nat × List Char) :=
  match splitOnce '‴' rest with
  | some p4 => obind (parseNat p4.1) (fun b => some (b, p4.2))
  | none => some (0, rest)

/-- `Ordinal::from_degree` (src/ordinal.rs): split at `°`, `′`, `″`, parse the
cycle number, epoch offset (rejected at `≥ SUBSIDY_HALVING_INTERVAL`) and
period offset (rejected at `≥ DIFFCHANGE_INTERVAL`); require the relationship
`P + SUBSIDY_HALVING_INTERVAL·CYCLE_EPOCHS − E` to be a multiple of
`HALVING_INCREMENT`, recover the epoch within the cycle from it, parse an
optional `‴`-terminated block offset (defaulting to 0), reject trailing
characters and block offsets at or above the height's subsidy. -/
def fromDegree (s : List Char) : Option Nat :=
  obind (splitOnce '°' s) (fun p1 =>
  obind (parseNat p1.1) (fun cycleNumber =>
  obind (splitOnce '′' p1.2) (fun p2 =>
  obind (parseNat p2.1) (fun epochOffset =>
  if SUBSIDY_HALVING_INTERVAL ≤ epochOffset then none
  else
    obind (splitOnce '″' p2.2) (fun p3 =>
    obind (parseNat p3.1) (fun periodOffset =>
    if DIFFCHANGE_INTERVAL ≤ periodOffset then none
    else
      if (periodOffset + SUBSIDY_HALVING_INTERVAL * CYCLE_EPOCHS - epochOffset) %
          HALVING_INCREMENT ≠ 0 then none
      else
        obind (parseBlockOffset p3.2) (fun bp =>
        if bp.2 ≠ [] then none
        else
          if heightSubsidy ((cycleNumber * CYCLE_EPOCHS +
              (periodOffset + SUBSIDY_HALVING_INTERVAL * CYCLE_EPOCHS - epochOffset) %
                DIFFCHANGE_INTERVAL / HALVING_INCREMENT) * SUBSIDY_HALVING_INTERVAL +
              epochOffset) ≤ bp.1 then none
          else
            some (heightStartingOrdinal ((cycleNumber * CYCLE_EPOCHS +
              (periodOffset + SUBSIDY_HALVING_INTERVAL * CYCLE_EPOCHS - epochOffset) %
                DIFFCHANGE_INTERVAL / HALVING_INCREMENT) * SUBSIDY_HALVING_INTERVAL +
              epochOffset) + bp.1))))))))

theorem parseBlockOffset_append (l : List Char) (hm : '‴' ∉ l) (b : Nat)
    (hp : parseNat l = some b) : parseBlockOffset (l ++ ['‴']) = some (b, []) := by
  unfold parseBlockOffset
  rw [splitOnce_append l [] hm]
  show obind (parseNat l) (fun v => some (v, [])) = some (b, [])
  rw [hp, obind_some]

theorem pow_ten_thirty : (10 : Nat) ^ 30 = 1000000000000000000000000000000 := by norm_num

/-- Decoding a degree rendering built from an epoch index `e ≤ 32`, an epoch
block offset `E`, the matching period offset, and a block offset `B` below
the epoch subsidy recovers the identifier of that position. -/
theorem fromDegree_generic (e E B : Nat) (he : e ≤ 32) (hE : E < 210000)
    (hB : B < subsidyOfEpoch e) :
    fromDegree (natChars (e / 6) ++
        '°' :: (natChars E ++
          '′' :: (natChars ((e * 210000 + E) % 2016) ++
            '″' :: (natChars B ++ ['‴'])))) =
      some (epochStart e + E * subsidyOfEpoch e + B) := by
  have hσ : 0 < subsidyOfEpoch e := subsidyOfEpoch_pos he
  have hσle : subsidyOfEpoch e ≤ 5000000000 := by
    unfold subsidyOfEpoch
    rw [Nat.shiftRight_eq_div_pow]
    exact Nat.div_le_self _ _
  have h10 := pow_ten_thirty
  have hSHI : SUBSIDY_HALVING_INTERVAL = 210000 := rfl
  have hDIFF : DIFFCHANGE_INTERVAL = 2016 := rfl
  have hHI : HALVING_INCREMENT = 336 := rfl
  have hCYC : CYCLE_EPOCHS = 6 := rfl
  have hm1 : ('°' : Char) ∉ natChars (e / 6) := not_mem_natChars (by decide) (e / 6)
  have hm2 : ('′' : Char) ∉ natChars E := not_mem_natChars (by decide) E
  have hm3 : ('″' : Char) ∉ natChars ((e * 210000 + E) % 2016) :=
    not_mem_natChars (by decide) ((e * 210000 + E) % 2016)
  have hm4 : ('‴' : Char) ∉ natChars B := not_mem_natChars (by decide) B
  unfold fromDegree
  simp only [hSHI, hDIFF, hHI, hCYC]
  rw [splitOnce_append _ _ hm1]
  simp only [obind_some]
  rw [parseNat_natChars (e / 6) (by omega)]
  simp only [obind_some]
  rw [splitOnce_append _ _ hm2]
  simp only [obind_some]
  rw [parseNat_natChars E (by omega)]
  simp only [obind_some]
  have hg1 : ¬ 210000 ≤ E := by omega
  rw [if_neg hg1]
  rw [splitOnce_append _ _ hm3]
  simp only [obind_some]
  rw [parseNat_natChars ((e * 210000 + E) % 2016) (by omega)]
  simp only [obind_some]
  have hg2 : ¬ 2016 ≤ (e * 210000 + E) % 2016 := by omega
  rw [if_neg hg2]
  have hg3 : ¬ ((e * 210000 + E) % 2016 + 210000 * 6 - E) % 336 ≠ 0 := by omega
  rw [if_neg hg3]
  rw [parseBlockOffset_append (natChars B) hm4 B (parseNat_natChars B (by omega))]
  simp only [obind_some]
  have hg4 : ¬ (([] : List Char) ≠ []) := by simp
  rw [if_neg hg4]
  have hepoch : e / 6 * 6 +
      ((e * 210000 + E) % 2016 + 210000 * 6 - E) % 2016 / 336 = e := by
    omega
  rw [hepoch]
  have hdivh : (e * 210000 + E) / SUBSIDY_HALVING_INTERVAL = e := by
    rw [hSHI]
    omega
  have hmodh : (e * 210000 + E) % SUBSIDY_HALVING_INTERVAL = E := by
    rw [hSHI]
    omega
  have hsub : heightSubsidy (e * 210000 + E) = subsidyOfEpoch e := by
    unfold heightSubsidy
    rw [hdivh]
    rfl
  have hg5 : ¬ heightSubsidy (e * 210000 + E) ≤ B := by
    rw [hsub]
    omega
  rw [if_neg hg5]
  have hstart : heightStartingOrdinal (e * 210000 + E) =
      epochStart e + E * subsidyOfEpoch e := by
    unfold heightStartingOrdinal
    rw [hdivh, hmodh, hsub]
  rw [hstart]

/-- C8: the degree encoding round-trips through `from_degree` for every
identifier in `[0, SUPPLY)`; every degree rendering contains `°` and no
letter `a..z`, so the `FromStr` dispatcher indeed routes it to
`from_degree`; and the spec's edge case `0°1680′0″0‴` decodes to
`1054200000000000` and back. -/
theorem degree_round_trip :
    (∀ i, i < SUPPLY →
      fromDegree (degreeChars i) = some i ∧
      ('°' : Char) ∈ degreeChars i ∧
      (∀ c ∈ degreeChars i, isNameChar c = false)) ∧
    fromDegree ['0', '°', '1', '6', '8', '0', '′', '0', '″', '0', '‴'] =
      some 1054200000000000 ∧
    degreeChars 1054200000000000 =
      ['0', '°', '1', '6', '8', '0', '′', '0', '″', '0', '‴'] := by
  refine ⟨?_, by decide, by decide⟩
  intro i hi
  have hSHI : SUBSIDY_HALVING_INTERVAL = 210000 := rfl
  have hDIFF : DIFFCHANGE_INTERVAL = 2016 := rfl
  have hCYC : CYCLE_EPOCHS = 6 := rfl
  have he32 : epochOf i ≤ 32 := epochOf_le i
  have hσ : 0 < subsidyOfEpoch (epochOf i) := subsidyOfEpoch_pos he32
  have hlow : epochStart (epochOf i) ≤ i := epochStart_epochOf_le i
  have hup : i < epochStart (epochOf i) + 210000 * subsidyOfEpoch (epochOf i) := by
    have h1 := lt_epochStart_succ_epochOf hi
    rw [epochStart_succ, hSHI] at h1
    exact h1
  have hposdef : epochPosition i = i - epochStart (epochOf i) := rfl
  have hposlt : epochPosition i < 210000 * subsidyOfEpoch (epochOf i) := by
    rw [hposdef]
    omega
  have hE : epochPosition i / subsidyOfEpoch (epochOf i) < 210000 := by
    rw [Nat.div_lt_iff_lt_mul hσ]
    omega
  have hB : thirdOf i < subsidyOfEpoch (epochOf i) := Nat.mod_lt _ hσ
  have hheight : heightOf i =
      epochOf i * 210000 + epochPosition i / subsidyOfEpoch (epochOf i) := by
    unfold heightOf
    rw [hSHI]
  have hmin : heightOf i % 210000 = epochPosition i / subsidyOfEpoch (epochOf i) := by
    rw [hheight]
    obtain ⟨Ev, hEv⟩ : ∃ v, epochPosition i / subsidyOfEpoch (epochOf i) = v := ⟨_, rfl⟩
    rw [hEv] at hE ⊢
    omega
  have hshape : degreeChars i =
      natChars (epochOf i / 6) ++
        '°' :: (natChars (epochPosition i / subsidyOfEpoch (epochOf i)) ++
          '′' :: (natChars ((epochOf i * 210000 +
              epochPosition i / subsidyOfEpoch (epochOf i)) % 2016) ++
            '″' :: (natChars (thirdOf i) ++ ['‴']))) := by
    unfold degreeChars
    rw [hCYC, hSHI, hDIFF, hmin, hheight]
  refine ⟨?_, ?_, ?_⟩
  · rw [hshape, fromDegree_generic (epochOf i) _ _ he32 hE hB]
    have harith : epochStart (epochOf i) +
        epochPosition i / subsidyOfEpoch (epochOf i) * subsidyOfEpoch (epochOf i) +
        thirdOf i = i := by
      have hdm := Nat.div_add_mod (epochPosition i) (subsidyOfEpoch (epochOf i))
      have hthird : thirdOf i = epochPosition i % subsidyOfEpoch (epochOf i) := rfl
      obtain ⟨Ev, hEv⟩ : ∃ v, epochPosition i / subsidyOfEpoch (epochOf i) = v := ⟨_, rfl⟩
      obtain ⟨Bv, hBv⟩ : ∃ v, epochPosition i % subsidyOfEpoch (epochOf i) = v := ⟨_, rfl⟩
      rw [hEv, hBv] at hdm
      rw [hEv, hthird, hBv]
      rw [Nat.mul_comm Ev (subsidyOfEpoch (epochOf i))]
      obtain ⟨Pv, hPv⟩ : ∃ p, subsidyOfEpoch (epochOf i) * Ev = p := ⟨_, rfl⟩
      rw [hPv] at hdm ⊢
      omega
    rw [harith]
  · unfold degreeChars
    simp
  · intro c hc
    rw [hshape] at hc
    simp only [List.mem_append, List.mem_cons] at hc
    rcases hc with h | h | h
    · exact isNameChar_false_of_digit (natChars_all_digits _ c h)
    · rw [h]
      decide
    rcases h with h | h | h
    · exact isNameChar_false_of_digit (natChars_all_digits _ c h)
    · rw [h]
      decide
    rcases h with h | h | h
    · exact isNameChar_false_of_digit (natChars_all_digits _ c h)
    · rw [h]
      decide
    rcases h with h | h | h
    · exact isNameChar_false_of_digit (natChars_all_digits _ c h)
    · rw [h]
      decide
    · simp at h

/-- Witness for C8 at identifier 7. -/
theorem degree_round_trip_witness :
    7 < SUPPLY ∧ fromDegree (degreeChars 7) = some 7 :=
  ⟨by decide, (degree_round_trip.1 7 (by decide)).1⟩

/-! ## Transaction builder
(src/subcommand/wallet/transaction_builder.rs)

Outpoints and addresses are modelled as `Nat`; an address stands for its
`script_pubkey` (the address-to-script map is injective, and the builder
compares outputs only through `script_pubkey`).  The two quantities the
builder obtains from the `bitcoin` crate — the dust limit of an output script
and the vsize of the fee-estimation placeholder transaction (which depends
only on the number of inputs and the output scripts, since every placeholder
input carries the same fixed 138-byte `script_sig` and values occupy a fixed
8 bytes) — are external collaborators per spec §6 and enter as parameters. -/

structure Ext where
  vsize : Nat → List Nat → Nat
  dust : Nat → Nat

inductive BuildError where
  | notInWallet (ordinal : Nat)
  | notEnoughCardinalUtxos
  | rareOrdinalLostToRecipient (ordinal : Nat)
  | rareOrdinalLostToFee (ordinal : Nat)
deriving DecidableEq, Repr

/-- Outcome of a builder stage: success, a typed user error, or a Rust panic
(from `assert!`, `expect`, `unwrap` or indexing). -/
inductive Step (α : Type) where
  | ok (a : α)
  | err (e : BuildError)
  | panicked (msg : String)
deriving DecidableEq, Repr

def Step.bind {α β : Type} : Step α → (α → Step β) → Step β
  | .ok a, f => f a
  | .err e, _ => .err e
  | .panicked m, _ => .panicked m

theorem Step.bind_ok {α β : Type} {x : Step α} {f : α → Step β} {c : β}
    (h : Step.bind x f = .ok c) : ∃ a, x = .ok a ∧ f a = .ok c := by
  cases x with
  | ok a => exact ⟨a, rfl, h⟩
  | err e => exact absurd h (by simp [Step.bind])
  | panicked m => exact absurd h (by simp [Step.bind])

theorem Step.bind_err {α β : Type} {x : Step α} {f : α → Step β} {e : BuildError}
    (h : Step.bind x f = .err e) : x = .err e ∨ ∃ a, x = .ok a ∧ f a = .err e := by
  cases x with
  | ok a => exact Or.inr ⟨a, rfl, h⟩
  | err d =>
    left
    have : Step.err d = (Step.err e : Step β) := h
    cases this
    rfl
  | panicked m => exact absurd h (by simp [Step.bind])

structure Builder where
  changeAddresses : List Nat
  unusedChangeAddresses : List Nat
  inputs : List Nat
  ordinal : Nat
  outputs : List (Nat × Nat)
  ranges : List (Nat × List (Nat × Nat))
  recipient : Nat
  utxos : List Nat
deriving DecidableEq, Repr

/-- The built transaction, reduced to the fields the claims speak about; the
constant fields (version 1, locktime 0, sequences `MAX`, empty scripts and
witnesses) are omitted. -/
structure Tx where
  inputs : List Nat
  outputs : List (Nat × Nat)
deriving DecidableEq, Repr

def TARGET_FEE_RATE : Nat := 1

def TARGET_POSTAGE : Nat := 10000

def MAX_POSTAGE : Nat := 2 * 10000

/-- `self.ranges[&outpoint]`; the `BTreeMap` is modelled as an association
list whose key order is the map's iteration order.  Rust indexing panics on
an absent key; the builder only ever looks up keys present in the map, and an
absent key yields `[]` here. -/
def lookupRanges (ranges : List (Nat × List (Nat × Nat))) (op : Nat) : List (Nat × Nat) :=
  match ranges.find? (fun pr => pr.1 == op) with
  | some pr => pr.2
  | none => []

def sumSpans (rs : List (Nat × Nat)) : Nat := (rs.map (fun r => r.2 - r.1)).sum

def sumAmounts (outs : List (Nat × Nat)) : Nat := (outs.map (fun o => o.2)).sum

def concatRangesOf (ranges : List (Nat × List (Nat × Nat))) : List Nat → List (Nat × Nat)
  | [] => []
  | i :: is => lookupRanges ranges i ++ concatRangesOf ranges is

/-- The predicate of `select_ordinal`'s `find`:
`ordinal.0 < *end && ordinal.0 >= *start` over the output's ranges. -/
def containsOrdinal (ordinal : Nat) (rs : List (Nat × Nat)) : Bool :=
  rs.any (fun r => decide (ordinal < r.2 ∧ r.1 ≤ ordinal))

/-- `TransactionBuilder::select_ordinal`. -/
def selectOrdinal (b : Builder) : Step Builder :=
  match b.ranges.find? (fun pr => containsOrdinal b.ordinal pr.2) with
  | none => .err (.notInWallet b.ordinal)
  | some pr =>
    .ok { b with
      utxos := b.utxos.erase pr.1
      inputs := b.inputs ++ [pr.1]
      outputs := b.outputs ++ [(b.recipient, sumSpans pr.2)] }

/-- The loop of `calculate_ordinal_offset` over the concatenated input
ranges: prefix spans accumulate until the range containing the ordinal is
found. -/
def ordinalOffsetAux (ordinal : Nat) : Nat → List (Nat × Nat) → Option Nat
  | _, [] => none
  | acc, r :: rest =>
    if r.1 ≤ ordinal ∧ ordinal < r.2 then some (acc + (ordinal - r.1))
    else ordinalOffsetAux ordinal (acc + (r.2 - r.1)) rest

/-- `TransactionBuilder::calculate_ordinal_offset` (panics when the ordinal is
not found in the inputs). -/
def calculateOrdinalOffset (b : Builder) : Step Nat :=
  match ordinalOffsetAux b.ordinal 0 (concatRangesOf b.ranges b.inputs) with
  | some v => .ok v
  | none => .panicked "Could not find ordinal in inputs"

/-- `TransactionBuilder::align_ordinal`.  The change-address `Vec` is popped
from its end. -/
def alignOrdinal (b : Builder) : Step Builder :=
  match b.outputs with
  | [o] =>
    if o.1 = b.recipient then
      Step.bind (calculateOrdinalOffset b) (fun off =>
        if off = 0 then .ok b
        else
          match b.unusedChangeAddresses.getLast? with
          | some ch =>
            .ok { b with
              outputs := [(ch, off), (o.1, o.2 - off)]
              unusedChangeAddresses := b.unusedChangeAddresses.dropLast }
          | none => .panicked "not enough change addresses")
    else .panicked "invariant: first output is recipient"
  | _ => .panicked "invariant: only one output"

/-- The `rarity > Rarity::Common` test of `select_cardinal_utxo` and of the
rare-ordinal scan in `build`. -/
def isRareStart (r : Nat × Nat) : Bool :=
  decide (Rarity.rank Rarity.common < Rarity.rank (rarityOf r.1))

/-- The iteration of `select_cardinal_utxo` over the remaining UTXO set. -/
def selectCardinalLoop (ranges : List (Nat × List (Nat × Nat))) (minAmount : Nat) :
    List Nat → Option (Nat × Nat)
  | [] => none
  | u :: us =>
    if (lookupRanges ranges u).any isRareStart then selectCardinalLoop ranges minAmount us
    else
      if minAmount ≤ sumSpans (lookupRanges ranges u) then
        some (u, sumSpans (lookupRanges ranges u))
      else selectCardinalLoop ranges minAmount us

/-- `TransactionBuilder::select_cardinal_utxo`: the first cardinal UTXO of
sufficient value is removed from the candidate set and returned with its
total value. -/
def selectCardinalUtxo (b : Builder) (minAmount : Nat) : Step (Nat × Nat × Builder) :=
  match selectCardinalLoop b.ranges minAmount b.utxos with
  | none => .err .notEnoughCardinalUtxos
  | some ua => .ok (ua.1, ua.2, { b with utxos := b.utxos.erase ua.1 })

/-- `TransactionBuilder::estimate_vsize`: the placeholder transaction's vsize
depends on the number of inputs and the output scripts only. -/
def estimateVsize (ext : Ext) (b : Builder) : Nat :=
  ext.vsize b.inputs.length (b.outputs.map (fun o => o.1))

/-- `TransactionBuilder::estimate_fee`: `TARGET_FEE_RATE * vsize`. -/
def estimateFee (ext : Ext) (b : Builder) : Nat := TARGET_FEE_RATE * estimateVsize ext b

/-- `TransactionBuilder::pad_alignment_output`. -/
def padAlignmentOutput (ext : Ext) (b : Builder) : Step Builder :=
  match b.outputs with
  | [] => .panicked "index out of bounds"
  | o :: rest =>
    if o.1 = b.recipient then .ok b
    else
      if o.2 < ext.dust b.recipient then
        Step.bind (selectCardinalUtxo b (ext.dust b.recipient - o.2)) (fun usb =>
          .ok { usb.2.2 with
            inputs := usb.1 :: usb.2.2.inputs
            outputs := (o.1, o.2 + usb.2.1) :: rest })
      else .ok b

/-- `TransactionBuilder::add_postage`. -/
def addPostage (ext : Ext) (b : Builder) : Step Builder :=
  match b.outputs.getLast? with
  | none => .panicked "called unwrap on a None value"
  | some lo =>
    if lo.2 < ext.dust lo.1 + estimateFee ext b then
      Step.bind (selectCardinalUtxo b (ext.dust lo.1 + estimateFee ext b - lo.2)) (fun usb =>
        .ok { usb.2.2 with
          inputs := usb.2.2.inputs ++ [usb.1]
          outputs := usb.2.2.outputs.dropLast ++ [(lo.1, lo.2 + usb.2.1)] })
    else .ok b

/-- `TransactionBuilder::strip_excess_postage`.  `Amount` subtraction in the
source would panic if the ordinal offset exceeded the output total; on the
pipeline's reachable states the outputs conserve the input total, which is at
least the offset, so truncated subtraction is faithful. -/
def stripExcessPostage (b : Builder) : Step Builder :=
  Step.bind (calculateOrdinalOffset b) (fun off =>
    if (b.outputs.find? (fun o => o.1 == b.recipient)).isSome then
      if MAX_POSTAGE < sumAmounts b.outputs - off then
        match b.outputs.getLast? with
        | none => .panicked "no outputs found"
        | some lo =>
          match b.unusedChangeAddresses.getLast? with
          | some ch =>
            .ok { b with
              outputs := (b.outputs.dropLast ++ [(lo.1, TARGET_POSTAGE)]) ++
                [(ch, sumAmounts b.outputs - off - TARGET_POSTAGE)]
              unusedChangeAddresses := b.unusedChangeAddresses.dropLast }
          | none => .panicked "not enough change addresses"
      else .ok b
    else .panicked "couldnt find output that contains the index")

/-- `TransactionBuilder::deduct_fee`: asserts
`total - fee > ordinal_offset && last >= fee` (the `Amount` subtraction panics
when `fee > total`; the model folds that case into the same panic branch,
which truncated subtraction reaches because `0 > offset` is false), then
subtracts the fee from the last output. -/
def deductFee (ext : Ext) (b : Builder) : Step Builder :=
  Step.bind (calculateOrdinalOffset b) (fun off =>
    match b.outputs.getLast? with
    | none => .panicked "No output to deduct fee from"
    | some lo =>
      if off < sumAmounts b.outputs - estimateFee ext b ∧ estimateFee ext b ≤ lo.2 then
        .ok { b with outputs := b.outputs.dropLast ++ [(lo.1, lo.2 - estimateFee ext b)] }
      else .panicked "invariant: deducting fee does not consume ordinal")

/-! The assertion battery of `TransactionBuilder::build`, stage by stage. -/

/-- `build`: find the outpoint hosting the ordinal (panic if none) and assert
that exactly one transaction input spends it. -/
def checkInputsSpendOrdinal (b : Builder) : Step Unit :=
  match b.ranges.find? (fun pr =>
      pr.2.any (fun r => decide (r.1 ≤ b.ordinal ∧ b.ordinal < r.2))) with
  | none => .panicked "invariant: ordinal is contained in utxo ranges"
  | some pr =>
    if b.inputs.count pr.1 = 1 then .ok ()
    else .panicked "invariant: inputs spend ordinal"

/-- `build`: recompute the ordinal offset over the concatenated input ranges
(`assert!(found)`). -/
def getBuildOffset (b : Builder) : Step Nat :=
  match ordinalOffsetAux b.ordinal 0 (concatRangesOf b.ranges b.inputs) with
  | some v => .ok v
  | none => .panicked "invariant: ordinal is found in inputs"

/-- `build`: walk output values until the running end exceeds the ordinal
offset and assert the output reached is the recipient's. -/
def checkOrdinalToRecipient (recipient : Nat) (off : Nat) : Nat → List (Nat × Nat) → Step Unit
  | _, [] => .panicked "invariant: ordinal is found in outputs"
  | acc, o :: rest =>
    if off < acc + o.2 then
      if o.1 = recipient then .ok ()
      else .panicked "invariant: ordinal is sent to recipient"
    else checkOrdinalToRecipient recipient off (acc + o.2) rest

/-- `build`: the recipient script appears in exactly one output. -/
def checkRecipientOnce (b : Builder) : Step Unit :=
  if b.outputs.countP (fun o => o.1 == b.recipient) = 1 then .ok ()
  else .panicked "invariant: recipient address appears exactly once in outputs"

/-- `build`: each change address appears in at most one output. -/
def checkChangeOnce (b : Builder) : Step Unit :=
  if b.changeAddresses.all (fun ch => b.outputs.countP (fun o => o.1 == ch) ≤ 1) then .ok ()
  else .panicked "invariant: change addresses appear at most once in outputs"

/-- `build`: the offset walk over the outputs — at the recipient output,
assert the value is below `MAX_POSTAGE` and the accumulated offset equals the
ordinal offset; at any other output, assert it belongs to a change address. -/
def walkOutputs (recipient : Nat) (change : List Nat) (off : Nat) :
    Nat → List (Nat × Nat) → Step Unit
  | _, [] => .ok ()
  | acc, o :: rest =>
    if o.1 = recipient then
      if o.2 < MAX_POSTAGE then
        if acc = off then walkOutputs recipient change off (acc + o.2) rest
        else .panicked "invariant: ordinal is at first position in recipient output"
      else .panicked "invariant: excess postage is stripped"
    else
      if change.contains o.1 then walkOutputs recipient change off (acc + o.2) rest
      else .panicked "invariant: all outputs are either change or recipient"

/-- `build`: the fee as the source computes it — `Amount` additions over the
input ranges, then an `Amount` subtraction per output.  Output prefix sums
are monotone, so the sequence of subtractions panics exactly when the output
total exceeds the input total. -/
def computeFee (b : Builder) : Step Nat :=
  if sumAmounts b.outputs ≤ sumSpans (concatRangesOf b.ranges b.inputs) then
    .ok (sumSpans (concatRangesOf b.ranges b.inputs) - sumAmounts b.outputs)
  else .panicked "attempt to subtract with overflow"

/-- `build`: `fee_rate == target_fee_rate`.  The source compares
`fee as f64 / vsize as f64` with `1.0`; for the magnitudes reachable here
(both quantities far below `2^53`) that floating-point equality coincides
with the integer equality `fee = TARGET_FEE_RATE * vsize`. -/
def checkFeeRate (ext : Ext) (b : Builder) (fee : Nat) : Step Unit :=
  if fee = TARGET_FEE_RATE * estimateVsize ext b then .ok ()
  else .panicked "invariant: fee rate is equal to target fee rate"

/-- `build`: every output value is at least its script dust limit. -/
def checkDust (ext : Ext) (b : Builder) : Step Unit :=
  if b.outputs.all (fun o => decide (ext.dust o.1 ≤ o.2)) then .ok ()
  else .panicked "invariant: all outputs are above dust limit"

/-- `build`: collect the non-Common range starts of the concatenated input
ranges with their offsets. -/
def collectRare : Nat → List (Nat × Nat) → List (Nat × Nat)
  | _, [] => []
  | acc, r :: rest =>
    if isRareStart r then (r.1, acc) :: collectRare (acc + (r.2 - r.1)) rest
    else collectRare (acc + (r.2 - r.1)) rest

/-- `build`: the half-open value span of the first recipient output, `(0, 0)`
when the loop never breaks. -/
def recipientRangeOf (recipient : Nat) : Nat → List (Nat × Nat) → Nat × Nat
  | _, [] => (0, 0)
  | acc, o :: rest =>
    if o.1 = recipient then (acc, acc + o.2)
    else recipientRangeOf recipient (acc + o.2) rest

/-- `build`: scan the rare ordinals in offset order; a non-target rare
ordinal inside the recipient span yields `RareOrdinalLostToRecipient`, one at
or beyond `total input − fee` yields `RareOrdinalLostToFee`. -/
def rareScan (ordinal : Nat) (recRange : Nat × Nat) (cutoff : Nat) :
    List (Nat × Nat) → Option BuildError
  | [] => none
  | ro :: rest =>
    if ro.1 = ordinal then rareScan ordinal recRange cutoff rest
    else
      if recRange.1 ≤ ro.2 ∧ ro.2 < recRange.2 then some (.rareOrdinalLostToRecipient ro.1)
      else
        if cutoff ≤ ro.2 then some (.rareOrdinalLostToFee ro.1)
        else rareScan ordinal recRange cutoff rest

/-- `TransactionBuilder::build`: emit the transaction, run the assertion
battery, and finish with the rare-ordinal scan whose failures are user
errors. -/
def buildFinal (ext : Ext) (b : Builder) : Step Tx :=
  Step.bind (checkInputsSpendOrdinal b) (fun _ =>
  Step.bind (getBuildOffset b) (fun off =>
  Step.bind (checkOrdinalToRecipient b.recipient off 0 b.outputs) (fun _ =>
  Step.bind (checkRecipientOnce b) (fun _ =>
  Step.bind (checkChangeOnce b) (fun _ =>
  Step.bind (walkOutputs b.recipient b.changeAddresses off 0 b.outputs) (fun _ =>
  Step.bind (computeFee b) (fun fee =>
  Step.bind (checkFeeRate ext b fee) (fun _ =>
  Step.bind (checkDust ext b) (fun _ =>
    match rareScan b.ordinal
        (recipientRangeOf b.recipient 0 b.outputs)
        (sumSpans (concatRangesOf b.ranges b.inputs) - fee)
        (collectRare 0 (concatRangesOf b.ranges b.inputs)) with
    | some e => .err e
    | none => .ok { inputs := b.inputs, outputs := b.outputs })))))))))

/-- `TransactionBuilder::new`. -/
def initBuilder (ranges : List (Nat × List (Nat × Nat))) (ordinal recipient : Nat)
    (change : List Nat) : Builder :=
  { changeAddresses := change
    unusedChangeAddresses := change
    inputs := []
    ordinal := ordinal
    outputs := []
    ranges := ranges
    recipient := recipient
    utxos := ranges.map (fun pr => pr.1) }

/-- `TransactionBuilder::build_transaction`: the seven-stage pipeline. -/
def buildTransaction (ext : Ext) (ranges : List (Nat × List (Nat × Nat)))
    (ordinal recipient : Nat) (change : List Nat) : Step Tx :=
  Step.bind (selectOrdinal (initBuilder ranges ordinal recipient change)) (fun b1 =>
  Step.bind (alignOrdinal b1) (fun b2 =>
  Step.bind (padAlignmentOutput ext b2) (fun b3 =>
  Step.bind (addPostage ext b3) (fun b4 =>
  Step.bind (stripExcessPostage b4) (fun b5 =>
  Step.bind (deductFee ext b5) (fun b6 =>
  buildFinal ext b6))))))

/-- A concrete external-collaborator instance used by the witnesses: the
exact vsize of the fee-estimation placeholder for P2WPKH outputs (4 version
bytes, 1-byte counts, 179 bytes per placeholder input, 31 bytes per P2WPKH
output, 4 locktime bytes; valid below 253 inputs and outputs) and the P2WPKH
dust limit of 294 sats. -/
def extP2wpkh : Ext :=
  { vsize := fun nin outs => 10 + 179 * nin + 31 * outs.length
    dust := fun _ => 294 }

/-! ### Which stages produce which errors -/

theorem calculateOrdinalOffset_no_err {b : Builder} {e : BuildError} :
    calculateOrdinalOffset b ≠ .err e := by
  intro h
  unfold calculateOrdinalOffset at h
  split at h <;> simp_all

theorem selectOrdinal_err {b : Builder} {e : BuildError}
    (h : selectOrdinal b = .err e) : e = .notInWallet b.ordinal := by
  unfold selectOrdinal at h
  split at h <;> simp_all

theorem alignOrdinal_no_err {b : Builder} {e : BuildError} :
    alignOrdinal b ≠ .err e := by
  intro h
  unfold alignOrdinal at h
  split at h
  · split at h
    · rcases Step.bind_err h with h1 | ⟨a, _, h2⟩
      · exact calculateOrdinalOffset_no_err h1
      · split at h2
        · simp_all
        · split at h2 <;> simp_all
    · simp_all
  · simp_all

theorem selectCardinalUtxo_err {b : Builder} {m : Nat} {e : BuildError}
    (h : selectCardinalUtxo b m = .err e) : e = .notEnoughCardinalUtxos := by
  unfold selectCardinalUtxo at h
  split at h <;> simp_all

theorem padAlignmentOutput_err {ext : Ext} {b : Builder} {e : BuildError}
    (h : padAlignmentOutput ext b = .err e) : e = .notEnoughCardinalUtxos := by
  unfold padAlignmentOutput at h
  split at h
  · simp_all
  · split at h
    · simp_all
    · split at h
      · rcases Step.bind_err h with h1 | ⟨a, _, h2⟩
        · exact selectCardinalUtxo_err h1
        · simp_all
      · simp_all

theorem addPostage_err {ext : Ext} {b : Builder} {e : BuildError}
    (h : addPostage ext b = .err e) : e = .notEnoughCardinalUtxos := by
  unfold addPostage at h
  split at h
  · simp_all
  · split at h
    · rcases Step.bind_err h with h1 | ⟨a, _, h2⟩
      · exact selectCardinalUtxo_err h1
      · simp_all
    · simp_all

theorem stripExcessPostage_no_err {b : Builder} {e : BuildError} :
    stripExcessPostage b ≠ .err e := by
  intro h
  unfold stripExcessPostage at h
  rcases Step.bind_err h with h1 | ⟨a, _, h2⟩
  · exact calculateOrdinalOffset_no_err h1
  · split at h2
    · split at h2
      · split at h2
        · simp_all
        · split at h2 <;> simp_all
      · simp_all
    · simp_all

theorem deductFee_no_err {ext : Ext} {b : Builder} {e : BuildError} :
    deductFee ext b ≠ .err e := by
  intro h
  unfold deductFee at h
  rcases Step.bind_err h with h1 | ⟨a, _, h2⟩
  · exact calculateOrdinalOffset_no_err h1
  · split at h2
    · simp_all
    · split at h2 <;> simp_all

theorem checkInputsSpendOrdinal_no_err {b : Builder} {e : BuildError} :
    checkInputsSpendOrdinal b ≠ .err e := by
  intro h
  unfold checkInputsSpendOrdinal at h
  split at h
  · simp_all
  · split at h <;> simp_all

theorem getBuildOffset_no_err {b : Builder} {e : BuildError} :
    getBuildOffset b ≠ .err e := by
  intro h
  unfold getBuildOffset at h
  split at h <;> simp_all

theorem checkOrdinalToRecipient_no_err {recipient off : Nat} {e : BuildError} :
    ∀ (acc : Nat) (outs : List (Nat × Nat)),
      checkOrdinalToRecipient recipient off acc outs ≠ .err e := by
  intro acc outs
  induction outs generalizing acc with
  | nil =>
    intro h
    simp [checkOrdinalToRecipient] at h
  | cons o rest ih =>
    intro h
    unfold checkOrdinalToRecipient at h
    split at h
    · split at h <;> simp_all
    · exact ih _ h

theorem checkRecipientOnce_no_err {b : Builder} {e : BuildError} :
    checkRecipientOnce b ≠ .err e := by
  intro h
  unfold checkRecipientOnce at h
  split at h <;> simp_all

theorem checkChangeOnce_no_err {b : Builder} {e : BuildError} :
    checkChangeOnce b ≠ .err e := by
  intro h
  unfold checkChangeOnce at h
  split at h <;> simp_all

theorem walkOutputs_no_err {recipient : Nat} {change : List Nat} {off : Nat}
    {e : BuildError} :
    ∀ (acc : Nat) (outs : List (Nat × Nat)),
      walkOutputs recipient change off acc outs ≠ .err e := by
  intro acc outs
  induction outs generalizing acc with
  | nil =>
    intro h
    simp [walkOutputs] at h
  | cons o rest ih =>
    intro h
    unfold walkOutputs at h
    split at h
    · split at h
      · split at h
        · exact ih _ h
        · simp_all
      · simp_all
    · split at h
      · exact ih _ h
      · simp_all

theorem computeFee_no_err {b : Builder} {e : BuildError} :
    computeFee b ≠ .err e := by
  intro h
  unfold computeFee at h
  split at h <;> simp_all

theorem checkFeeRate_no_err {ext : Ext} {b : Builder} {fee : Nat} {e : BuildError} :
    checkFeeRate ext b fee ≠ .err e := by
  intro h
  unfold checkFeeRate at h
  split at h <;> simp_all

theorem checkDust_no_err {ext : Ext} {b : Builder} {e : BuildError} :
    checkDust ext b ≠ .err e := by
  intro h
  unfold checkDust at h
  split at h <;> simp_all

/-- Errors escaping the final stage come from the rare-ordinal scan. -/
theorem buildFinal_err {ext : Ext} {b : Builder} {e : BuildError}
    (h : buildFinal ext b = .err e) :
    ∃ off, getBuildOffset b = .ok off ∧
      rareScan b.ordinal (recipientRangeOf b.recipient 0 b.outputs)
        (sumSpans (concatRangesOf b.ranges b.inputs) -
          (sumSpans (concatRangesOf b.ranges b.inputs) - sumAmounts b.outputs))
        (collectRare 0 (concatRangesOf b.ranges b.inputs)) = some e := by
  unfold buildFinal at h
  rcases Step.bind_err h with h1 | ⟨_, _, h2⟩
  · exact absurd h1 checkInputsSpendOrdinal_no_err
  rcases Step.bind_err h2 with h1 | ⟨off, hoff, h3⟩
  · exact absurd h1 getBuildOffset_no_err
  rcases Step.bind_err h3 with h1 | ⟨_, _, h4⟩
  · exact absurd h1 (checkOrdinalToRecipient_no_err _ _)
  rcases Step.bind_err h4 with h1 | ⟨_, _, h5⟩
  · exact absurd h1 checkRecipientOnce_no_err
  rcases Step.bind_err h5 with h1 | ⟨_, _, h6⟩
  · exact absurd h1 checkChangeOnce_no_err
  rcases Step.bind_err h6 with h1 | ⟨_, _, h7⟩
  · exact absurd h1 (walkOutputs_no_err _ _)
  rcases Step.bind_err h7 with h1 | ⟨fee, hfee, h8⟩
  · exact absurd h1 computeFee_no_err
  rcases Step.bind_err h8 with h1 | ⟨_, _, h9⟩
  · exact absurd h1 checkFeeRate_no_err
  rcases Step.bind_err h9 with h1 | ⟨_, _, h10⟩
  · exact absurd h1 checkDust_no_err
  refine ⟨off, hoff, ?_⟩
  have hfee2 : fee = sumSpans (concatRangesOf b.ranges b.inputs) - sumAmounts b.outputs := by
    unfold computeFee at hfee
    split at hfee
    · simp_all
    · simp_all
  rw [hfee2] at h10
  split at h10
  · simp_all
  · simp_all

theorem rareScan_some_shape {o : Nat} {rr : Nat × Nat} {cut : Nat} :
    ∀ (l : List (Nat × Nat)) (e : BuildError), rareScan o rr cut l = some e →
      ∃ r, e = .rareOrdinalLostToRecipient r ∨ e = .rareOrdinalLostToFee r := by
  intro l
  induction l with
  | nil =>
    intro e h
    simp [rareScan] at h
  | cons ro rest ih =>
    intro e h
    unfold rareScan at h
    split at h
    · exact ih e h
    · split at h
      · exact ⟨ro.1, Or.inl (by simp_all)⟩
      · split at h
        · exact ⟨ro.1, Or.inr (by simp_all)⟩
        · exact ih e h

/-- C5: `build_transaction` returns `NotInWallet(ordinal)` exactly when no
half-open range of any output in the manifest contains the ordinal; when some
range contains it, that error is never returned (stage 1 is the only producer
of `NotInWallet`). -/
theorem build_notInWallet_iff (ext : Ext) (ranges : List (Nat × List (Nat × Nat)))
    (ordinal recipient : Nat) (change : List Nat) :
    buildTransaction ext ranges ordinal recipient change =
        .err (.notInWallet ordinal) ↔
      ∀ pr ∈ ranges, ∀ g ∈ pr.2, ¬(g.1 ≤ ordinal ∧ ordinal < g.2) := by
  constructor
  · intro h
    unfold buildTransaction at h
    rcases Step.bind_err h with h1 | ⟨b1, hb1, h2⟩
    · unfold selectOrdinal at h1
      split at h1
      · rename_i hf
        intro pr hpr g hg hcon
        have hnone := List.find?_eq_none.mp hf pr hpr
        apply hnone
        unfold containsOrdinal
        simp only [List.any_eq_true, decide_eq_true_eq]
        exact ⟨g, hg, hcon.2, hcon.1⟩
      · simp_all
    · exfalso
      rcases Step.bind_err h2 with h1 | ⟨b2, _, h3⟩
      · exact alignOrdinal_no_err h1
      rcases Step.bind_err h3 with h1 | ⟨b3, _, h4⟩
      · have := padAlignmentOutput_err h1
        simp at this
      rcases Step.bind_err h4 with h1 | ⟨b4, _, h5⟩
      · have := addPostage_err h1
        simp at this
      rcases Step.bind_err h5 with h1 | ⟨b5, _, h6⟩
      · exact stripExcessPostage_no_err h1
      rcases Step.bind_err h6 with h1 | ⟨b6, _, h7⟩
      · exact deductFee_no_err h1
      · obtain ⟨off, _, hscan⟩ := buildFinal_err h7
        obtain ⟨r, hr | hr⟩ := rareScan_some_shape _ _ hscan
        · simp at hr
        · simp at hr
  · intro h
    unfold buildTransaction
    have hsel : selectOrdinal (initBuilder ranges ordinal recipient change) =
        .err (.notInWallet ordinal) := by
      unfold selectOrdinal
      have hf : ranges.find? (fun pr => containsOrdinal ordinal pr.2) = none := by
        apply List.find?_eq_none.mpr
        intro pr hpr
        unfold containsOrdinal
        simp only [List.any_eq_true, decide_eq_true_eq, not_exists]
        intro g
        rintro ⟨hgmem, hlt, hle⟩
        exact h pr hpr g hgmem ⟨hle, hlt⟩
      show (match ranges.find? (fun pr => containsOrdinal ordinal pr.2) with
        | none => Step.err (.notInWallet ordinal)
        | some pr =>
          Step.ok { initBuilder ranges ordinal recipient change with
            utxos := (initBuilder ranges ordinal recipient change).utxos.erase pr.1
            inputs := (initBuilder ranges ordinal recipient change).inputs ++ [pr.1]
            outputs := (initBuilder ranges ordinal recipient change).outputs ++
              [((initBuilder ranges ordinal recipient change).recipient, sumSpans pr.2)] }) =
        Step.err (.notInWallet ordinal)
      rw [hf]
    rw [hsel]
    rfl

/-- Witness for C5: the wallet `{1 ↦ [10, 20)}` does not contain ordinal 5. -/
theorem build_notInWallet_iff_witness :
    buildTransaction extP2wpkh [(1, [(10, 20)])] 5 0 [] =
      Step.err (.notInWallet 5) :=
  (build_notInWallet_iff extP2wpkh [(1, [(10, 20)])] 5 0 []).mpr (by decide)

/-! ### The cardinal UTXO selector (C6) -/

theorem selectCardinalLoop_none {ranges : List (Nat × List (Nat × Nat))} {minAmount : Nat} :
    ∀ us : List Nat, selectCardinalLoop ranges minAmount us = none ↔
      ∀ u ∈ us, ¬((lookupRanges ranges u).any isRareStart = false ∧
        minAmount ≤ sumSpans (lookupRanges ranges u)) := by
  intro us
  induction us with
  | nil => simp [selectCardinalLoop]
  | cons u us ih =>
    unfold selectCardinalLoop
    cases hrare : (lookupRanges ranges u).any isRareStart with
    | true =>
      simp only [hrare, if_true]
      rw [ih]
      constructor
      · intro hall v hv
        rcases List.mem_cons.mp hv with rfl | hv2
        · intro hcon
          rw [hrare] at hcon
          simp at hcon
        · exact hall v hv2
      · intro hall v hv
        exact hall v (List.mem_cons_of_mem u hv)
    | false =>
      simp only [hrare, Bool.false_eq_true, if_false]
      by_cases hamt : minAmount ≤ sumSpans (lookupRanges ranges u)
      · rw [if_pos hamt]
        constructor
        · intro hcon
          simp at hcon
        · intro hall
          exact absurd ⟨hrare, hamt⟩ (hall u (List.mem_cons_self u us))
      · rw [if_neg hamt, ih]
        constructor
        · intro hall v hv
          rcases List.mem_cons.mp hv with rfl | hv2
          · intro hcon
            exact hamt hcon.2
          · exact hall v hv2
        · intro hall v hv
          exact hall v (List.mem_cons_of_mem u hv)

theorem selectCardinalLoop_some {ranges : List (Nat × List (Nat × Nat))} {minAmount : Nat} :
    ∀ (us : List Nat) (u amt : Nat), selectCardinalLoop ranges minAmount us = some (u, amt) →
      (lookupRanges ranges u).any isRareStart = false ∧
      minAmount ≤ sumSpans (lookupRanges ranges u) ∧
      amt = sumSpans (lookupRanges ranges u) ∧
      ∃ pre post, us = pre ++ u :: post ∧
        ∀ v ∈ pre, ¬((lookupRanges ranges v).any isRareStart = false ∧
          minAmount ≤ sumSpans (lookupRanges ranges v)) := by
  intro us
  induction us with
  | nil =>
    intro u amt h
    simp [selectCardinalLoop] at h
  | cons w us ih =>
    intro u amt h
    unfold selectCardinalLoop at h
    cases hrare : (lookupRanges ranges w).any isRareStart with
    | true =>
      rw [hrare] at h
      simp only [if_true] at h
      obtain ⟨h1, h2, h3, pre, post, hsplit, hpre⟩ := ih u amt h
      refine ⟨h1, h2, h3, w :: pre, post, by rw [hsplit]; rfl, ?_⟩
      intro v hv
      rcases List.mem_cons.mp hv with rfl | hv2
      · intro hcon
        rw [hrare] at hcon
        simp at hcon
      · exact hpre v hv2
    | false =>
      rw [hrare] at h
      simp only [Bool.false_eq_true, if_false] at h
      by_cases hamt : minAmount ≤ sumSpans (lookupRanges ranges w)
      · rw [if_pos hamt] at h
        have hw : w = u ∧ amt = sumSpans (lookupRanges ranges w) := by
          have := Option.some.inj h
          exact ⟨congrArg Prod.fst this, (congrArg Prod.snd this).symm⟩
        obtain ⟨rfl, hamt2⟩ := hw
        exact ⟨hrare, hamt, hamt2, [], us, rfl, by simp⟩
      · rw [if_neg hamt] at h
        obtain ⟨h1, h2, h3, pre, post, hsplit, hpre⟩ := ih u amt h
        refine ⟨h1, h2, h3, w :: pre, post, by rw [hsplit]; rfl, ?_⟩
        intro v hv
        rcases List.mem_cons.mp hv with rfl | hv2
        · intro hcon
          exact hamt hcon.2
        · exact hpre v hv2

/-- C6: with the candidate set listed in ascending outpoint order (the
`BTreeSet` iteration order), the cardinal selector skips every UTXO with a
non-Common range start, returns the first remaining UTXO whose total value
reaches the minimum together with that total, removes exactly that UTXO from
the candidate set, and errs with `NotEnoughCardinalUtxos` exactly when no
such UTXO exists. -/
theorem selectCardinalUtxo_spec (b : Builder) (minAmount : Nat)
    (hsorted : b.utxos.Pairwise (fun x y => x < y)) :
    (∀ u amt b2, selectCardinalUtxo b minAmount = .ok (u, amt, b2) →
      u ∈ b.utxos ∧
      (lookupRanges b.ranges u).any isRareStart = false ∧
      minAmount ≤ sumSpans (lookupRanges b.ranges u) ∧
      amt = sumSpans (lookupRanges b.ranges u) ∧
      (∀ v ∈ b.utxos, v < u →
        ¬((lookupRanges b.ranges v).any isRareStart = false ∧
          minAmount ≤ sumSpans (lookupRanges b.ranges v))) ∧
      b2 = { b with utxos := b.utxos.erase u }) ∧
    (selectCardinalUtxo b minAmount = .err .notEnoughCardinalUtxos ↔
      ∀ u ∈ b.utxos, ¬((lookupRanges b.ranges u).any isRareStart = false ∧
        minAmount ≤ sumSpans (lookupRanges b.ranges u))) := by
  constructor
  · intro u amt b2 h
    unfold selectCardinalUtxo at h
    cases hloop : selectCardinalLoop b.ranges minAmount b.utxos with
    | none =>
      rw [hloop] at h
      simp at h
    | some ua =>
      rw [hloop] at h
      have hinj := Step.ok.inj h
      have hu : ua.1 = u := congrArg (fun t => t.1) hinj
      have hamt : ua.2 = amt := congrArg (fun t => t.2.1) hinj
      have hb2 : b2 = { b with utxos := b.utxos.erase ua.1 } :=
        (congrArg (fun t => t.2.2) hinj).symm
      obtain ⟨h1, h2, h3, pre, post, hsplit, hpre⟩ :=
        selectCardinalLoop_some b.utxos ua.1 ua.2 (by rw [hloop])
      subst hu
      subst hamt
      refine ⟨by rw [hsplit]; simp, h1, h2, h3, ?_, hb2⟩
      intro v hv hlt
      rw [hsplit] at hsorted hv
      rcases List.mem_append.mp hv with hvpre | hvrest
      · exact hpre v hvpre
      · rcases List.mem_cons.mp hvrest with rfl | hvpost
        · omega
        · exfalso
          have hpair := (List.pairwise_append.mp hsorted).2.1
          have := (List.pairwise_cons.mp hpair).1 v hvpost
          omega
  · constructor
    · intro h u hu
      unfold selectCardinalUtxo at h
      cases hloop : selectCardinalLoop b.ranges minAmount b.utxos with
      | none => exact selectCardinalLoop_none b.utxos |>.mp hloop u hu
      | some ua =>
        rw [hloop] at h
        simp at h
    · intro h
      unfold selectCardinalUtxo
      rw [selectCardinalLoop_none b.utxos |>.mpr h]

/-- Witness for C6: the selector skips UTXO 2 (its range starts at the Mythic
ordinal 0) and picks UTXO 3. -/
theorem selectCardinalUtxo_spec_witness :
    selectCardinalUtxo
        { initBuilder [(2, [(0, 100)]), (3, [(10000, 20000)])] 0 0 [] with
          utxos := [2, 3] } 5000 =
      .ok (3, 10000,
        { initBuilder [(2, [(0, 100)]), (3, [(10000, 20000)])] 0 0 [] with
          utxos := [2] }) ∧
    3 ∈ [2, 3] ∧
    ¬((lookupRanges [(2, [(0, 100)]), (3, [(10000, 20000)])] 2).any isRareStart = false ∧
      (5000 : Nat) ≤ sumSpans (lookupRanges [(2, [(0, 100)]), (3, [(10000, 20000)])] 2)) := by
  refine ⟨by decide, ?_, ?_⟩
  · have h := (selectCardinalUtxo_spec
      { initBuilder [(2, [(0, 100)]), (3, [(10000, 20000)])] 0 0 [] with utxos := [2, 3] }
      5000 (by decide)).1 3 10000
      { initBuilder [(2, [(0, 100)]), (3, [(10000, 20000)])] 0 0 [] with utxos := [2] }
      (by decide)
    exact h.1
  · have h := (selectCardinalUtxo_spec
      { initBuilder [(2, [(0, 100)]), (3, [(10000, 20000)])] 0 0 [] with utxos := [2, 3] }
      5000 (by decide)).1 3 10000
      { initBuilder [(2, [(0, 100)]), (3, [(10000, 20000)])] 0 0 [] with utxos := [2] }
      (by decide)
    exact h.2.2.2.2.1 2 (by decide) (by decide)

/-! ### Stage field preservation: `ranges`, `recipient`, `ordinal` and the
change-address set never change after construction -/

/-- The builder fields that stay fixed across all stages. -/
def coreOf (b : Builder) : List (Nat × List (Nat × Nat)) × Nat × Nat × List Nat :=
  (b.ranges, b.recipient, b.ordinal, b.changeAddresses)

theorem selectOrdinal_core {b b2 : Builder} (h : selectOrdinal b = .ok b2) :
    coreOf b2 = coreOf b := by
  unfold selectOrdinal at h
  split at h
  · simp at h
  · have h2 := Step.ok.inj h
    rw [← h2]
    rfl

theorem selectCardinalUtxo_core {b b2 : Builder} {m u amt : Nat}
    (h : selectCardinalUtxo b m = .ok (u, amt, b2)) : coreOf b2 = coreOf b := by
  unfold selectCardinalUtxo at h
  split at h
  · simp at h
  · have h2 := congrArg (fun t => t.2.2) (Step.ok.inj h)
    simp only [] at h2
    rw [← h2]
    rfl

theorem alignOrdinal_core {b b2 : Builder} (h : alignOrdinal b = .ok b2) :
    coreOf b2 = coreOf b := by
  unfold alignOrdinal at h
  split at h
  · split at h
    · obtain ⟨off, _, h2⟩ := Step.bind_ok h
      split at h2
      · have h3 := Step.ok.inj h2
        rw [← h3]
      · split at h2
        · have h3 := Step.ok.inj h2
          rw [← h3]
          rfl
        · simp at h2
    · simp at h
  · simp at h

theorem padAlignmentOutput_core {ext : Ext} {b b2 : Builder}
    (h : padAlignmentOutput ext b = .ok b2) : coreOf b2 = coreOf b := by
  unfold padAlignmentOutput at h
  split at h
  · simp at h
  · split at h
    · have h2 := Step.ok.inj h
      rw [← h2]
    · split at h
      · obtain ⟨usb, hsel, h2⟩ := Step.bind_ok h
        have h3 := Step.ok.inj h2
        have h4 : coreOf usb.2.2 = coreOf b := selectCardinalUtxo_core (by
          rw [hsel])
        rw [← h3]
        exact h4
      · have h2 := Step.ok.inj h
        rw [← h2]

theorem addPostage_core {ext : Ext} {b b2 : Builder}
    (h : addPostage ext b = .ok b2) : coreOf b2 = coreOf b := by
  unfold addPostage at h
  split at h
  · simp at h
  · split at h
    · obtain ⟨usb, hsel, h2⟩ := Step.bind_ok h
      have h3 := Step.ok.inj h2
      have h4 : coreOf usb.2.2 = coreOf b := selectCardinalUtxo_core (by rw [hsel])
      rw [← h3]
      exact h4
    · have h2 := Step.ok.inj h
      rw [← h2]

theorem stripExcessPostage_core {b b2 : Builder}
    (h : stripExcessPostage b = .ok b2) : coreOf b2 = coreOf b := by
  unfold stripExcessPostage at h
  obtain ⟨off, _, h2⟩ := Step.bind_ok h
  split at h2
  · split at h2
    · split at h2
      · simp at h2
      · split at h2
        · have h3 := Step.ok.inj h2
          rw [← h3]
          rfl
        · simp at h2
    · have h3 := Step.ok.inj h2
      rw [← h3]
  · simp at h2

theorem deductFee_core {ext : Ext} {b b2 : Builder}
    (h : deductFee ext b = .ok b2) : coreOf b2 = coreOf b := by
  unfold deductFee at h
  obtain ⟨off, _, h2⟩ := Step.bind_ok h
  split at h2
  · simp at h2
  · split at h2
    · have h3 := Step.ok.inj h2
      rw [← h3]
      rfl
    · simp at h2

/-- Decompose a successful run: some final builder state reaches `build` with
the original manifest, recipient, ordinal and change addresses. -/
theorem buildTransaction_ok_decomp {ext : Ext} {ranges : List (Nat × List (Nat × Nat))}
    {ordinal recipient : Nat} {change : List Nat} {tx : Tx}
    (h : buildTransaction ext ranges ordinal recipient change = .ok tx) :
    ∃ b, buildFinal ext b = .ok tx ∧ b.ranges = ranges ∧ b.recipient = recipient ∧
      b.ordinal = ordinal ∧ b.changeAddresses = change := by
  unfold buildTransaction at h
  obtain ⟨b1, h1, h⟩ := Step.bind_ok h
  obtain ⟨b2, h2, h⟩ := Step.bind_ok h
  obtain ⟨b3, h3, h⟩ := Step.bind_ok h
  obtain ⟨b4, h4, h⟩ := Step.bind_ok h
  obtain ⟨b5, h5, h⟩ := Step.bind_ok h
  obtain ⟨b6, h6, h⟩ := Step.bind_ok h
  have hc : coreOf b6 = coreOf (initBuilder ranges ordinal recipient change) := by
    rw [deductFee_core h6, stripExcessPostage_core h5, addPostage_core h4,
      padAlignmentOutput_core h3, alignOrdinal_core h2, selectOrdinal_core h1]
  refine ⟨b6, h, ?_, ?_, ?_, ?_⟩
  · exact congrArg (fun t => t.1) hc
  · exact congrArg (fun t => t.2.1) hc
  · exact congrArg (fun t => t.2.2.1) hc
  · exact congrArg (fun t => t.2.2.2) hc

/-- Decompose a run ending in a rare-ordinal error: every earlier stage
succeeded and the final stage produced the error. -/
theorem buildTransaction_rare_err_decomp {ext : Ext}
    {ranges : List (Nat × List (Nat × Nat))} {ordinal recipient : Nat}
    {change : List Nat} {e : BuildError} {r : Nat}
    (h : buildTransaction ext ranges ordinal recipient change = .err e)
    (hshape : e = .rareOrdinalLostToRecipient r ∨ e = .rareOrdinalLostToFee r) :
    ∃ b, buildFinal ext b = .err e ∧ b.ranges = ranges ∧ b.recipient = recipient ∧
      b.ordinal = ordinal := by
  unfold buildTransaction at h
  rcases Step.bind_err h with h1 | ⟨b1, hb1, h⟩
  · exfalso
    have := selectOrdinal_err h1
    rcases hshape with rfl | rfl <;> simp_all
  rcases Step.bind_err h with h1 | ⟨b2, hb2, h⟩
  · exact absurd h1 alignOrdinal_no_err
  rcases Step.bind_err h with h1 | ⟨b3, hb3, h⟩
  · exfalso
    have := padAlignmentOutput_err h1
    rcases hshape with rfl | rfl <;> simp_all
  rcases Step.bind_err h with h1 | ⟨b4, hb4, h⟩
  · exfalso
    have := addPostage_err h1
    rcases hshape with rfl | rfl <;> simp_all
  rcases Step.bind_err h with h1 | ⟨b5, hb5, h⟩
  · exact absurd h1 stripExcessPostage_no_err
  rcases Step.bind_err h with h1 | ⟨b6, hb6, h⟩
  · exact absurd h1 deductFee_no_err
  have hc : coreOf b6 = coreOf (initBuilder ranges ordinal recipient change) := by
    rw [deductFee_core hb6, stripExcessPostage_core hb5, addPostage_core hb4,
      padAlignmentOutput_core hb3, alignOrdinal_core hb2, selectOrdinal_core hb1]
  exact ⟨b6, h, congrArg (fun t => t.1) hc, congrArg (fun t => t.2.1) hc,
    congrArg (fun t => t.2.2.1) hc⟩

/-- What a successful final stage guarantees: the emitted transaction is the
builder's inputs and outputs, the offset walk and recipient checks passed,
the fee identity holds and the rare scan found nothing. -/
theorem buildFinal_ok {ext : Ext} {b : Builder} {tx : Tx}
    (h : buildFinal ext b = .ok tx) :
    tx.inputs = b.inputs ∧ tx.outputs = b.outputs ∧
    (∃ off, ordinalOffsetAux b.ordinal 0 (concatRangesOf b.ranges b.inputs) = some off ∧
      checkRecipientOnce b = .ok () ∧
      walkOutputs b.recipient b.changeAddresses off 0 b.outputs = .ok ()) ∧
    sumAmounts b.outputs ≤ sumSpans (concatRangesOf b.ranges b.inputs) ∧
    sumSpans (concatRangesOf b.ranges b.inputs) - sumAmounts b.outputs =
      TARGET_FEE_RATE * estimateVsize ext b ∧
    rareScan b.ordinal (recipientRangeOf b.recipient 0 b.outputs)
      (sumSpans (concatRangesOf b.ranges b.inputs) -
        (sumSpans (concatRangesOf b.ranges b.inputs) - sumAmounts b.outputs))
      (collectRare 0 (concatRangesOf b.ranges b.inputs)) = none := by
  unfold buildFinal at h
  obtain ⟨u1, _, h⟩ := Step.bind_ok h
  obtain ⟨off, hoff, h⟩ := Step.bind_ok h
  obtain ⟨u2, _, h⟩ := Step.bind_ok h
  obtain ⟨u3, hronce, h⟩ := Step.bind_ok h
  obtain ⟨u4, _, h⟩ := Step.bind_ok h
  obtain ⟨u5, hwalk, h⟩ := Step.bind_ok h
  obtain ⟨fee, hfee, h⟩ := Step.bind_ok h
  obtain ⟨u6, hrate, h⟩ := Step.bind_ok h
  obtain ⟨u7, _, h⟩ := Step.bind_ok h
  have hfee2 : sumAmounts b.outputs ≤ sumSpans (concatRangesOf b.ranges b.inputs) ∧
      fee = sumSpans (concatRangesOf b.ranges b.inputs) - sumAmounts b.outputs := by
    unfold computeFee at hfee
    split at hfee
    · exact ⟨by assumption, (Step.ok.inj hfee).symm⟩
    · simp at hfee
  have hrate2 : fee = TARGET_FEE_RATE * estimateVsize ext b := by
    unfold checkFeeRate at hrate
    split at hrate
    · assumption
    · simp at hrate
  have hoff2 : ordinalOffsetAux b.ordinal 0 (concatRangesOf b.ranges b.inputs) = some off := by
    unfold getBuildOffset at hoff
    split at hoff
    · rename_i v hv
      rw [hv]
      exact congrArg some (Step.ok.inj hoff)
    · simp at hoff
  rw [hfee2.2] at h
  split at h
  · simp at h
  · rename_i hscan
    have htx := (Step.ok.inj h).symm
    refine ⟨by rw [htx], by rw [htx], ⟨off, hoff2, hronce, hwalk⟩, hfee2.1, ?_, hscan⟩
    rw [← hfee2.2, hrate2]

/-- The cumulative value of the outputs strictly before the first output paid
to `recipient`, `none` when no output pays the recipient. -/
def prefixBefore (recipient : Nat) : List (Nat × Nat) → Option Nat
  | [] => none
  | o :: rest =>
    if o.1 = recipient then some 0
    else (prefixBefore recipient rest).map (fun p => o.2 + p)

theorem prefixBefore_isSome {recipient : Nat} :
    ∀ outs : List (Nat × Nat), (∃ o ∈ outs, o.1 = recipient) →
      ∃ p, prefixBefore recipient outs = some p := by
  intro outs
  induction outs with
  | nil =>
    rintro ⟨o, ho, _⟩
    simp at ho
  | cons o rest ih =>
    rintro ⟨o2, ho2, hrec⟩
    unfold prefixBefore
    by_cases h : o.1 = recipient
    · rw [if_pos h]
      exact ⟨0, rfl⟩
    · rw [if_neg h]
      rcases List.mem_cons.mp ho2 with rfl | hmem
      · exact absurd hrec h
      · obtain ⟨p, hp⟩ := ih ⟨o2, hmem, hrec⟩
        exact ⟨o.2 + p, by rw [hp]; rfl⟩

/-- If the output walk of `build` passes, the accumulated value at the first
recipient output equals the ordinal offset. -/
theorem walkOutputs_prefix {recipient : Nat} {change : List Nat} {off : Nat} :
    ∀ (outs : List (Nat × Nat)) (acc p : Nat),
      walkOutputs recipient change off acc outs = .ok () →
      prefixBefore recipient outs = some p → acc + p = off := by
  intro outs
  induction outs with
  | nil =>
    intro acc p _ hp
    simp [prefixBefore] at hp
  | cons o rest ih =>
    intro acc p hw hp
    unfold walkOutputs at hw
    unfold prefixBefore at hp
    by_cases h : o.1 = recipient
    · rw [if_pos h] at hw hp
      have hp2 : p = 0 := (Option.some.inj hp).symm
      split at hw
      · split at hw
        · rename_i hacc
          omega
        · simp at hw
      · simp at hw
    · rw [if_neg h] at hw hp
      cases hpb : prefixBefore recipient rest with
      | none =>
        rw [hpb] at hp
        simp at hp
      | some p2 =>
        rw [hpb] at hp
        have hp2 : o.2 + p2 = p := by
          have hp3 : some (o.2 + p2) = some p := hp
          exact Option.some.inj hp3
        split at hw
        · have := ih (acc + o.2) p2 hw hpb
          omega
        · simp at hw

/-- C1: on every `Ok` result, walking the transaction's outputs in order, the
cumulative value of the outputs strictly before the recipient output equals
the ordinal's offset in the concatenated ranges of the inputs taken in input
order — the recipient output starts exactly at the requested ordinal. -/
theorem build_ok_recipient_starts_at_ordinal (ext : Ext)
    (ranges : List (Nat × List (Nat × Nat))) (ordinal recipient : Nat)
    (change : List Nat) (tx : Tx)
    (h : buildTransaction ext ranges ordinal recipient change = .ok tx) :
    ∃ off, ordinalOffsetAux ordinal 0 (concatRangesOf ranges tx.inputs) = some off ∧
      prefixBefore recipient tx.outputs = some off := by
  obtain ⟨b, hb, hr, hrec, hord, _⟩ := buildTransaction_ok_decomp h
  obtain ⟨hin, hout, ⟨off, hoff, hronce, hwalk⟩, _⟩ := buildFinal_ok hb
  have hex : ∃ o ∈ b.outputs, o.1 = b.recipient := by
    unfold checkRecipientOnce at hronce
    split at hronce
    · rename_i hcount
      have hpos : 0 < b.outputs.countP (fun o => o.1 == b.recipient) := by omega
      obtain ⟨o, ho, hpo⟩ := List.countP_pos_iff.mp hpos
      exact ⟨o, ho, by simpa using hpo⟩
    · simp at hronce
  obtain ⟨p, hp⟩ := prefixBefore_isSome b.outputs hex
  have hap := walkOutputs_prefix b.outputs 0 p hwalk hp
  refine ⟨off, ?_, ?_⟩
  · rw [hin, ← hr, ← hord]
    exact hoff
  · rw [hout, ← hrec, hp]
    exact congrArg some (by omega)

/-- Witness for C1: the single-input exact-postage send. -/
theorem build_ok_recipient_starts_at_ordinal_witness :
    buildTransaction extP2wpkh [(1, [(10000, 15000)])] 10000 0 [1, 2] =
      .ok { inputs := [1], outputs := [(0, 4780)] } ∧
    ∃ off, ordinalOffsetAux 10000 0
        (concatRangesOf [(1, [(10000, 15000)])] [1]) = some off ∧
      prefixBefore 0 [(0, 4780)] = some off :=
  ⟨by decide,
    build_ok_recipient_starts_at_ordinal extP2wpkh [(1, [(10000, 15000)])] 10000 0
      [1, 2] { inputs := [1], outputs := [(0, 4780)] } (by decide)⟩

/-- C2: on every `Ok` result, the fee — the input total minus the output
total — equals `TARGET_FEE_RATE` (1 sat/vbyte) times the transaction's vsize
exactly, vsize being the external §6 collaborator evaluated on the final
input count and output scripts as `estimate_vsize` does. -/
theorem build_ok_fee_rate_exact (ext : Ext)
    (ranges : List (Nat × List (Nat × Nat))) (ordinal recipient : Nat)
    (change : List Nat) (tx : Tx)
    (h : buildTransaction ext ranges ordinal recipient change = .ok tx) :
    sumAmounts tx.outputs ≤ sumSpans (concatRangesOf ranges tx.inputs) ∧
    sumSpans (concatRangesOf ranges tx.inputs) - sumAmounts tx.outputs =
      TARGET_FEE_RATE * ext.vsize tx.inputs.length (tx.outputs.map (fun o => o.1)) := by
  obtain ⟨b, hb, hr, _, _, _⟩ := buildTransaction_ok_decomp h
  obtain ⟨hin, hout, _, hle, hfee, _⟩ := buildFinal_ok hb
  constructor
  · rw [hin, hout, ← hr]
    exact hle
  · rw [hin, hout, ← hr]
    exact hfee

/-- Witness for C2: the aligned send pays exactly 1 sat/vbyte. -/
theorem build_ok_fee_rate_exact_witness :
    buildTransaction extP2wpkh [(1, [(0, 10000)])] 3333 0 [1, 2] =
      .ok { inputs := [1], outputs := [(2, 3333), (0, 6416)] } ∧
    sumAmounts [(2, 3333), (0, 6416)] ≤
      sumSpans (concatRangesOf [(1, [(0, 10000)])] [1]) ∧
    sumSpans (concatRangesOf [(1, [(0, 10000)])] [1]) -
        sumAmounts [(2, 3333), (0, 6416)] =
      TARGET_FEE_RATE * extP2wpkh.vsize 1 [2, 0] :=
  ⟨by decide,
    build_ok_fee_rate_exact extP2wpkh [(1, [(0, 10000)])] 3333 0 [1, 2]
      { inputs := [1], outputs := [(2, 3333), (0, 6416)] } (by decide)⟩

/-! ### Rare-ordinal loss (C4) -/

theorem rareScan_none_mem {o : Nat} {rr : Nat × Nat} {cut : Nat} :
    ∀ l : List (Nat × Nat), rareScan o rr cut l = none →
      ∀ p ∈ l, p.1 ≠ o → ¬(rr.1 ≤ p.2 ∧ p.2 < rr.2) ∧ p.2 < cut := by
  intro l
  induction l with
  | nil =>
    intro _ p hp
    simp at hp
  | cons ro rest ih =>
    intro h p hp hne
    unfold rareScan at h
    split at h
    · rename_i heq
      rcases List.mem_cons.mp hp with rfl | hmem
      · exact absurd heq hne
      · exact ih h p hmem hne
    · split at h
      · simp at h
      · split at h
        · simp at h
        · rename_i hnr hnc
          rcases List.mem_cons.mp hp with rfl | hmem
          · exact ⟨hnr, by omega⟩
          · exact ih h p hmem hne

theorem rareScan_some_loss {o : Nat} {rr : Nat × Nat} {cut : Nat} :
    ∀ (l : List (Nat × Nat)) (e : BuildError), rareScan o rr cut l = some e →
      ∃ r off, (r, off) ∈ l ∧ r ≠ o ∧
        ((e = .rareOrdinalLostToRecipient r ∧ rr.1 ≤ off ∧ off < rr.2) ∨
         (e = .rareOrdinalLostToFee r ∧ cut ≤ off)) := by
  intro l
  induction l with
  | nil =>
    intro e h
    simp [rareScan] at h
  | cons ro rest ih =>
    intro e h
    unfold rareScan at h
    split at h
    · obtain ⟨r, off, hm, hne, hcase⟩ := ih e h
      exact ⟨r, off, List.mem_cons_of_mem ro hm, hne, hcase⟩
    · rename_i hne
      split at h
      · rename_i hin
        have he := (Option.some.inj h).symm
        exact ⟨ro.1, ro.2, List.mem_cons_self ro rest, hne,
          Or.inl ⟨he, hin.1, hin.2⟩⟩
      · split at h
        · rename_i hcut
          have he := (Option.some.inj h).symm
          exact ⟨ro.1, ro.2, List.mem_cons_self ro rest, hne, Or.inr ⟨he, hcut⟩⟩
        · obtain ⟨r, off, hm, hne2, hcase⟩ := ih e h
          exact ⟨r, off, List.mem_cons_of_mem ro hm, hne2, hcase⟩

theorem collectRare_mem :
    ∀ (l : List (Nat × Nat)) (acc : Nat) (p : Nat × Nat), p ∈ collectRare acc l →
      Rarity.rank Rarity.common < Rarity.rank (rarityOf p.1) ∧ ∃ g ∈ l, g.1 = p.1 := by
  intro l
  induction l with
  | nil =>
    intro acc p hp
    simp [collectRare] at hp
  | cons r rest ih =>
    intro acc p hp
    unfold collectRare at hp
    split at hp
    · rename_i hrare
      rcases List.mem_cons.mp hp with rfl | hmem
      · refine ⟨?_, r, List.mem_cons_self r rest, rfl⟩
        exact of_decide_eq_true hrare
      · obtain ⟨h1, g, hg, he⟩ := ih _ p hmem
        exact ⟨h1, g, List.mem_cons_of_mem r hg, he⟩
    · obtain ⟨h1, g, hg, he⟩ := ih _ p hp
      exact ⟨h1, g, List.mem_cons_of_mem r hg, he⟩

theorem lookupRanges_mem {ranges : List (Nat × List (Nat × Nat))} {i : Nat}
    {g : Nat × Nat} (h : g ∈ lookupRanges ranges i) : ∃ pr ∈ ranges, g ∈ pr.2 := by
  unfold lookupRanges at h
  split at h
  · rename_i pr hf
    exact ⟨pr, List.mem_of_find?_eq_some hf, h⟩
  · simp at h

theorem concatRangesOf_mem {ranges : List (Nat × List (Nat × Nat))} :
    ∀ (inputs : List Nat) (g : Nat × Nat), g ∈ concatRangesOf ranges inputs →
      ∃ pr ∈ ranges, g ∈ pr.2 := by
  intro inputs
  induction inputs with
  | nil =>
    intro g hg
    simp [concatRangesOf] at hg
  | cons i is ih =>
    intro g hg
    unfold concatRangesOf at hg
    rcases List.mem_append.mp hg with h1 | h1
    · exact lookupRanges_mem h1
    · exact ih g h1

/-- Counterexample to C4 as stated: with two rare ordinals lost to the fee
(Mythic 0 at input-range offset 10000 and Uncommon 5000000000 at offset
10100, against a fee cutoff of 10200 − 251 = 9949), the builder returns the
error for the first of them only, while the claim demands
`Err(RareOrdinalLostToFee(r))` for every such `r`, including
`r = 5000000000`. -/
theorem build_rare_loss_counterexample :
    buildTransaction extP2wpkh
        [(1, [(15000, 25000), (0, 100), (5000000000, 5000000100)])] 24000 0 [1, 2] =
      .err (.rareOrdinalLostToFee 0) ∧
    Rarity.rank Rarity.common < Rarity.rank (rarityOf 5000000000) ∧
    (5000000000 : Nat) ≠ 24000 ∧
    (5000000000, 10100) ∈ collectRare 0 (concatRangesOf
      [(1, [(15000, 25000), (0, 100), (5000000000, 5000000100)])] [1]) ∧
    sumSpans (concatRangesOf
      [(1, [(15000, 25000), (0, 100), (5000000000, 5000000100)])] [1]) = 10200 ∧
    extP2wpkh.vsize 1 [2, 0] = 251 ∧
    (10200 : Nat) - 251 ≤ 10100 ∧
    (Step.err (.rareOrdinalLostToFee 0) : Step Tx) ≠
      .err (.rareOrdinalLostToFee 5000000000) := by
  refine ⟨by decide, by decide, by decide, by decide, by decide, by decide,
    by decide, by decide⟩

/-- C4 as amended: on every `Ok` run, no non-Common range start other than
the target ordinal has its input-range offset inside the recipient output's
value span or at or beyond the fee cutoff (which equals the output total);
and whenever `RareOrdinalLostToRecipient(r)` or `RareOrdinalLostToFee(r)` is
returned — always as a user error of the typed error enum, never as an
assertion failure — `r` is a non-Common identifier distinct from the target
that starts a range of the wallet manifest.  (As stated, the claim fails when
several rare ordinals are lost at once: only the first in offset order is
reported.) -/
theorem build_rare_loss_behaviour (ext : Ext)
    (ranges : List (Nat × List (Nat × Nat))) (ordinal recipient : Nat)
    (change : List Nat) :
    (∀ tx, buildTransaction ext ranges ordinal recipient change = .ok tx →
      ∀ p ∈ collectRare 0 (concatRangesOf ranges tx.inputs), p.1 ≠ ordinal →
        ¬((recipientRangeOf recipient 0 tx.outputs).1 ≤ p.2 ∧
          p.2 < (recipientRangeOf recipient 0 tx.outputs).2) ∧
        p.2 < sumAmounts tx.outputs) ∧
    (∀ r, (buildTransaction ext ranges ordinal recipient change =
          .err (.rareOrdinalLostToRecipient r) ∨
        buildTransaction ext ranges ordinal recipient change =
          .err (.rareOrdinalLostToFee r)) →
      Rarity.rank Rarity.common < Rarity.rank (rarityOf r) ∧ r ≠ ordinal ∧
      ∃ pr ∈ ranges, ∃ g ∈ pr.2, g.1 = r) := by
  constructor
  · intro tx h p hp hne
    obtain ⟨b, hb, hr, hrec, hord, _⟩ := buildTransaction_ok_decomp h
    obtain ⟨hin, hout, _, hle, _, hscan⟩ := buildFinal_ok hb
    rw [hr, hrec, hord, ← hin, ← hout] at hscan
    rw [hr, ← hin, ← hout] at hle
    have := rareScan_none_mem _ hscan p hp hne
    exact ⟨this.1, by omega⟩
  · intro r hcase
    have hshape : ∀ e, (buildTransaction ext ranges ordinal recipient change = .err e) →
        (e = .rareOrdinalLostToRecipient r ∨ e = .rareOrdinalLostToFee r) →
        Rarity.rank Rarity.common < Rarity.rank (rarityOf r) ∧ r ≠ ordinal ∧
        ∃ pr ∈ ranges, ∃ g ∈ pr.2, g.1 = r := by
      intro e he hsh
      obtain ⟨b, hb, hr, hrec, hord⟩ := buildTransaction_rare_err_decomp he hsh
      obtain ⟨off, _, hscan⟩ := buildFinal_err hb
      obtain ⟨r2, roff, hmem, hne, hloss⟩ := rareScan_some_loss _ _ hscan
      have hr2 : r2 = r := by
        rcases hloss with ⟨heq, _⟩ | ⟨heq, _⟩ <;> rcases hsh with rfl | rfl <;>
          simp_all
      subst hr2
      obtain ⟨hrank, g, hg, hgr⟩ := collectRare_mem _ _ _ hmem
      obtain ⟨pr, hpr, hgpr⟩ := concatRangesOf_mem _ _ hg
      rw [hr] at hpr
      rw [hord] at hne
      exact ⟨hrank, hne, pr, hpr, g, hgpr, hgr⟩
    rcases hcase with he | he
    · exact hshape _ he (Or.inl rfl)
    · exact hshape _ he (Or.inr rfl)

/-- Witness for the amended C4, at the counterexample input: the reported
ordinal 0 is rare, differs from the target, and starts a manifest range. -/
theorem build_rare_loss_behaviour_witness :
    Rarity.rank Rarity.common < Rarity.rank (rarityOf 0) ∧ (0 : Nat) ≠ 24000 ∧
    ∃ pr ∈ [(1, [(15000, 25000), (0, 100), (5000000000, 5000000100)])],
      ∃ g ∈ pr.2, g.1 = 0 :=
  (build_rare_loss_behaviour extP2wpkh
      [(1, [(15000, 25000), (0, 100), (5000000000, 5000000100)])] 24000 0 [1, 2]).2
    0 (Or.inr (by decide))

/-- C10: on well-formed inputs whose change list is exhausted when a change
output is needed, the builder panics with "not enough change addresses"
instead of returning one of the four typed errors — in `align_ordinal` for a
single-UTXO wallet holding the ordinal at a nonzero offset, and in
`strip_excess_postage` when excess postage must be returned. -/
theorem build_panics_on_exhausted_change :
    buildTransaction extP2wpkh [(1, [(0, 10000)])] 1 0 [] =
      Step.panicked "not enough change addresses" ∧
    buildTransaction extP2wpkh [(1, [(0, 1000000)])] 0 0 [] =
      Step.panicked "not enough change addresses" :=
  ⟨by decide, by decide⟩

end Ordinals
